import Mathlib

/- Shallow embedding of utils/matrix_logic/generate_sweep_configs.py.

   Python dictionaries with a fixed validated key set are modelled as Lean
   structures; a key that may be absent becomes an Option field; the ordered
   dict of configurations becomes an association list.  Machine integers from
   the YAML configs and the CLI are modelled as Int (Python ints are unbounded,
   so no modular reduction is needed).  CLI argument namespaces become one
   structure per subcommand.  A raised ValueError becomes an Except.error with
   a structured payload carrying the data interpolated into the message.
   While-loops that advance a strictly increasing counter are modelled with an
   explicit fuel argument returning Option; `none` means the loop did not
   terminate within the fuel (the concurrency loop diverges in Python when the
   running value can no longer grow, e.g. a range starting at 0). -/

/-- Concurrency value carried by a matrix entry: a scalar for single-node
entries, a list for multinode entries (the Python code stores either an int or
a list under the same key). -/
inductive ConcVal
  | scalar : Int → ConcVal
  | clist : List Int → ConcVal
  deriving DecidableEq

/-- Prefill/decode worker sub-record of a multinode benchmark point
(num-worker, tp, ep, dp-attention, additional-settings keys). -/
structure NodeCfg where
  num_worker : Int
  tp : Int
  ep : Int
  dp_attn : Bool
  additional_settings : List String := []
  deriving DecidableEq

/-- One emitted matrix entry (the flat output dict).  Fields that only the
single-node schema carries (tp, ep, dp_attn) or only the multinode schema
carries (prefill, decode) are Option; `none` models the key being absent from
the dict.  `model_code` carries the model-prefix field (the source binds it to
the local name `model_code`). -/
structure MatrixEntry where
  image : String
  model : String
  model_code : String
  precision : String
  framework : String
  runner : String
  isl : Int
  osl : Int
  tp : Option Int := none
  ep : Option Int := none
  dp_attn : Option Bool := none
  spec_decoding : String
  prefill : Option NodeCfg := none
  decode : Option NodeCfg := none
  conc : ConcVal
  max_model_len : Int
  exp_name : String
  disagg : Bool
  run_eval : Bool
  deriving DecidableEq

/-- seq_len_to_str: short name for an (isl, osl) pair via the seq_len_itos
reverse mapping, falling back to the "isl_osl" format. -/
def seq_len_to_str (isl osl : Int) : String :=
  if isl == 1024 && osl == 1024 then "1k1k"
  else if isl == 1024 && osl == 8192 then "1k8k"
  else if isl == 8192 && osl == 1024 then "8k1k"
  else toString isl ++ "_" ++ toString osl

/-- Fuel-indexed translation of the concurrency while-loop
`while conc <= end: append conc; if conc == end: break; conc *= step;
 if conc > end: conc = end`.  Returns `none` when the fuel runs out before the
loop finishes, i.e. when the Python loop has not terminated within `fuel`
iterations. -/
def concLoop (step : Int) : Nat → Int → Int → Option (List Int)
  | 0, _, _ => none
  | fuel + 1, conc, cend =>
    if conc ≤ cend then
      if conc = cend then some [conc]
      else
        (concLoop step fuel (if conc * step > cend then cend else conc * step) cend).map
          (fun rest => conc :: rest)
    else some []

/-- Concurrency range expansion (start, end, step).  The fuel `end - start + 1`
bounds the number of iterations whenever the running value strictly increases
(which it does whenever `start ≥ 1` and `step ≥ 2`); for inputs where the loop
diverges in Python (e.g. start = 0) the result is `none`. -/
def expandConcRange (cstart cend step : Int) : Option (List Int) :=
  concLoop step ((cend - cstart).toNat + 1) cstart cend

/-- Python truthiness of an optional list argument (argparse gives None or a
non-empty list; an empty list is falsy like None). -/
def truthyList {α : Type _} (o : Option (List α)) : Bool :=
  match o with
  | some l => !l.isEmpty
  | none => false

/-- Python truthiness of an optional string argument (None and "" are falsy). -/
def truthyStr (o : Option String) : Bool :=
  match o with
  | some s => !s.isEmpty
  | none => false

/-- Python `sub in s` on strings: substring containment. -/
def containsSubstr (s sub : String) : Bool :=
  (List.range (s.length + 1)).any (fun i => sub.isPrefixOf (s.drop i))

/-- Lookup in an association list (Python dict.get). -/
def lookupAssoc {β : Type _} (l : List (String × β)) (k : String) : Option β :=
  (l.find? (fun kv => kv.1 == k)).map Prod.snd

/-- Python `key in dict` on an association list. -/
def containsKey {β : Type _} (l : List (String × β)) (k : String) : Bool :=
  l.any (fun kv => kv.1 == k)

/-- Single-node benchmark point.  The single-node schema requires tp,
conc-start and conc-end (the full-sweep single-node branch reads them with
plain indexing); ep, dp-attn, spec-decoding and conc-list are optional keys. -/
structure BmkSingle where
  tp : Int
  conc_start : Int
  conc_end : Int
  conc_list : Option (List Int) := none
  ep : Option Int := none
  dp_attn : Option Bool := none
  spec_decoding : Option String := none
  deriving DecidableEq

/-- Multinode benchmark point: required prefill/decode sub-records, an optional
concurrency list, optional conc-start/conc-end (required by the schema exactly
when no truthy conc-list is given; reads of an absent key default to 0 here,
where Python would raise KeyError on such a schema-violating point), and an
optional spec-decoding mode. -/
structure BmkMulti where
  prefill : NodeCfg
  decode : NodeCfg
  conc_list : Option (List Int) := none
  conc_start : Option Int := none
  conc_end : Option Int := none
  spec_decoding : Option String := none
  deriving DecidableEq

/-- A search-space point is either single-node shaped or multinode shaped;
which shape a config's points have is fixed by its multinode flag (the two
schemas are mutually exclusive). -/
inductive Bmk
  | single : BmkSingle → Bmk
  | multi : BmkMulti → Bmk
  deriving DecidableEq

/-- One sequence-length profile: (isl, osl) plus its search space. -/
structure SeqConfig where
  isl : Int
  osl : Int
  search_space : List Bmk
  deriving DecidableEq

/-- One named configuration from the catalog (already schema-validated by the
loader).  multinode and disagg are read with .get defaulting to False, hence
plain Bool fields. -/
structure ConfigVal where
  image : String
  model : String
  model_code : String
  precision : String
  framework : String
  runner : String
  multinode : Bool := false
  disagg : Bool := false
  seq_len_configs : List SeqConfig
  deriving DecidableEq

/-- Arguments of the full-sweep subcommand. -/
structure FullSweepArgs where
  model_prefixes : Option (List String) := none
  precision : Option (List String) := none
  framework : Option (List String) := none
  runner_type : Option (List String) := none
  seq_lens : Option (List String) := none
  step_size : Int := 2
  min_conc : Option Int := none
  max_conc : Option Int := none
  max_tp : Option Int := none
  max_ep : Option Int := none
  single_node : Bool := false
  multi_node : Bool := false
  runner_node_filter : Option String := none
  deriving DecidableEq

/-- Arguments of the runner-model-sweep subcommand. -/
structure RunnerSweepArgs where
  runner_type : String
  model_prefixes : Option (List String) := none
  precision : Option (List String) := none
  framework : Option (List String) := none
  conc : Option Int := none
  single_node : Bool := false
  multi_node : Bool := false
  runner_node_filter : Option String := none
  deriving DecidableEq

/-- Arguments of the test-config subcommand. -/
structure TestConfigArgs where
  config_keys : List String
  conc : Option (List Int) := none
  deriving DecidableEq

/-- Structured payload of the ValueErrors raised by the three generators; each
constructor carries the data interpolated into the corresponding message. -/
inductive GenError
  | invalidRunnerTypes : List String → List String → GenError
  | unknownRunnerType : String → List String → GenError
  | noNodesMatchFilter : String → String → GenError
  | missingConfigKeys : List String → List String → GenError
  deriving DecidableEq

/-- Per-config metadata bound before the seq-len loop of the full sweep. -/
structure CfgCtx where
  image : String
  model : String
  model_code : String
  precision : String
  framework : String
  disagg : Bool
  deriving DecidableEq

/-- Single-node matrix entry as built at the innermost append of the full
sweep (EP defaults to 1 and dp-attn to False, then each is overridden when the
benchmark point carries it; validate_matrix_entry — whose module is not under
src/ — is per the spec a schema check that aborts on violation and otherwise
leaves the entry unchanged, and every entry built here conforms). -/
def mkSingleEntry (ctx : CfgCtx) (runner_value : String) (isl osl tp conc : Int)
    (ep : Option Int) (dp_attn : Option Bool) (sd : String) : MatrixEntry :=
  { image := ctx.image, model := ctx.model, model_code := ctx.model_code,
    precision := ctx.precision, framework := ctx.framework, runner := runner_value,
    isl := isl, osl := osl, tp := some tp, ep := some (ep.getD 1),
    dp_attn := some (dp_attn.getD false), spec_decoding := sd,
    prefill := none, decode := none, conc := ConcVal.scalar conc,
    max_model_len := isl + osl + 200,
    exp_name := ctx.model_code ++ "_" ++ seq_len_to_str isl osl,
    disagg := ctx.disagg, run_eval := false }

/-- Multinode matrix entry as built at the innermost append of the full sweep:
the whole concurrency list is stored under the conc key. -/
def mkMultiEntry (ctx : CfgCtx) (runner_value : String) (isl osl : Int)
    (sd : String) (prefill decode : NodeCfg) (conc_values : List Int) : MatrixEntry :=
  { image := ctx.image, model := ctx.model, model_code := ctx.model_code,
    precision := ctx.precision, framework := ctx.framework, runner := runner_value,
    isl := isl, osl := osl, spec_decoding := sd,
    prefill := some prefill, decode := some decode,
    conc := ConcVal.clist conc_values,
    max_model_len := isl + osl + 200,
    exp_name := ctx.model_code ++ "_" ++ seq_len_to_str isl osl,
    disagg := ctx.disagg, run_eval := false }

/-- Innermost single-node emission: one entry per expanded concurrency value
per runner value, in that nesting order (the source builds and discards one
entry before the runner loop; that dead construction is omitted).  A diverging
concurrency loop contributes no entries (in Python the process would hang,
producing no output at all). -/
def singleLoopEmit (step : Int) (ctx : CfgCtx) (runners : List String)
    (isl osl tp : Int) (ep : Option Int) (dp_attn : Option Bool) (sd : String)
    (cstart cend : Int) : List MatrixEntry :=
  ((expandConcRange cstart cend step).getD []).flatMap
    (fun conc => runners.map (fun rv => mkSingleEntry ctx rv isl osl tp conc ep dp_attn sd))

/-- Single-node max-conc filter: non-positive bound drops the point; a start
above the bound collapses the range to the single value max_conc; otherwise the
end is lowered to the bound. -/
def singleMaxConcStage (max_conc : Option Int) (step : Int) (ctx : CfgCtx)
    (runners : List String) (isl osl tp : Int) (ep : Option Int)
    (dp_attn : Option Bool) (sd : String) (cstart cend : Int) : List MatrixEntry :=
  match max_conc with
  | none => singleLoopEmit step ctx runners isl osl tp ep dp_attn sd cstart cend
  | some mc =>
    if mc ≤ 0 then []
    else if cstart > mc then singleLoopEmit step ctx runners isl osl tp ep dp_attn sd mc mc
    else singleLoopEmit step ctx runners isl osl tp ep dp_attn sd cstart (min cend mc)

/-- Single-node min-conc filter: non-positive bound drops the point; a range
ending below the bound drops the point; otherwise the start is raised to the
bound. -/
def singleMinConcStage (min_conc max_conc : Option Int) (step : Int) (ctx : CfgCtx)
    (runners : List String) (isl osl tp : Int) (ep : Option Int)
    (dp_attn : Option Bool) (sd : String) (cstart cend : Int) : List MatrixEntry :=
  match min_conc with
  | none => singleMaxConcStage max_conc step ctx runners isl osl tp ep dp_attn sd cstart cend
  | some mc =>
    if mc ≤ 0 then []
    else if cend < mc then []
    else singleMaxConcStage max_conc step ctx runners isl osl tp ep dp_attn sd (max cstart mc) cend

/-- Single-node max-ep filter: non-positive bound drops the point (even when
the point has no ep); a positive bound clamps an exceeding ep in place. -/
def singleEpStage (max_ep min_conc max_conc : Option Int) (step : Int) (ctx : CfgCtx)
    (runners : List String) (isl osl tp : Int) (ep : Option Int)
    (dp_attn : Option Bool) (sd : String) (cstart cend : Int) : List MatrixEntry :=
  match max_ep with
  | none => singleMinConcStage min_conc max_conc step ctx runners isl osl tp ep dp_attn sd cstart cend
  | some me =>
    if me ≤ 0 then []
    else
      singleMinConcStage min_conc max_conc step ctx runners isl osl tp
        (match ep with
         | some e => if e > me then some me else some e
         | none => none)
        dp_attn sd cstart cend

/-- Loop body of the full sweep for one single-node benchmark point (the elif
args.single_node branch): max-tp filter (non-positive drops, positive clamps),
then max-ep, min-conc, max-conc filters, then the concurrency loop. -/
def processSingleBmk (args : FullSweepArgs) (ctx : CfgCtx) (runners : List String)
    (isl osl : Int) (bmk : BmkSingle) : List MatrixEntry :=
  if !args.single_node then []
  else
    match args.max_tp with
    | none =>
      singleEpStage args.max_ep args.min_conc args.max_conc args.step_size ctx runners
        isl osl bmk.tp bmk.ep bmk.dp_attn (bmk.spec_decoding.getD "none")
        bmk.conc_start bmk.conc_end
    | some mt =>
      if mt ≤ 0 then []
      else
        singleEpStage args.max_ep args.min_conc args.max_conc args.step_size ctx runners
          isl osl (if bmk.tp > mt then mt else bmk.tp) bmk.ep bmk.dp_attn
          (bmk.spec_decoding.getD "none") bmk.conc_start bmk.conc_end

/-- Multinode min-conc filter on the expanded list: none for "skip the point",
otherwise the surviving list. -/
def multiMinConc (min_conc : Option Int) (l : List Int) : Option (List Int) :=
  match min_conc with
  | none => some l
  | some mc =>
    if mc ≤ 0 then none
    else
      let f := l.filter (fun c => mc ≤ c)
      if f.isEmpty then none else some f

/-- Multinode max-conc filter on the expanded list: when no value survives,
the list is replaced by [max_conc] if the bound is positive, else the point is
skipped. -/
def multiMaxConc (max_conc : Option Int) (l : List Int) : Option (List Int) :=
  match max_conc with
  | none => some l
  | some mc =>
    let f := l.filter (fun c => c ≤ mc)
    if f.isEmpty then
      if 0 < mc then some [mc] else none
    else some f

/-- Filter-and-emit tail of the multinode loop body: apply the min-conc and
max-conc list filters to the resolved concurrency values, then emit one entry
per runner value carrying the whole surviving list (the dead entry built
before the runner loop in the source is omitted). -/
def multiEmitStage (args : FullSweepArgs) (ctx : CfgCtx) (runners : List String)
    (isl osl : Int) (bmk : BmkMulti) (conc_values : List Int) : List MatrixEntry :=
  match multiMinConc args.min_conc conc_values with
  | none => []
  | some cv1 =>
    match multiMaxConc args.max_conc cv1 with
    | none => []
    | some cv2 =>
      runners.map (fun rv =>
        mkMultiEntry ctx rv isl osl (bmk.spec_decoding.getD "none") bmk.prefill bmk.decode cv2)

/-- Loop body of the full sweep for one multinode benchmark point: resolve the
concurrency values (a truthy conc-list as given, otherwise range expansion with
the step-size argument), then filter and emit. -/
def processMultiBmk (args : FullSweepArgs) (ctx : CfgCtx) (runners : List String)
    (isl osl : Int) (bmk : BmkMulti) : List MatrixEntry :=
  if !args.multi_node then []
  else
    multiEmitStage args ctx runners isl osl bmk
      (match bmk.conc_list with
       | some l =>
         if l.isEmpty then
           (expandConcRange (bmk.conc_start.getD 0) (bmk.conc_end.getD 0) args.step_size).getD []
         else l
       | none =>
         (expandConcRange (bmk.conc_start.getD 0) (bmk.conc_end.getD 0) args.step_size).getD [])

/-- Sequence-length pairs selected by the --seq-lens strings (argparse choices
restrict them to the seq_len_stoi keys; an unknown string is dropped here where
Python would raise KeyError before the sweep starts). -/
def seqLenPairs (ss : List String) : List (Int × Int) :=
  ss.filterMap (fun s =>
    if s == "1k1k" then some (1024, 1024)
    else if s == "1k8k" then some (1024, 8192)
    else if s == "8k1k" then some (8192, 1024)
    else none)

/-- Skip decision of the seq-lens filter for one (isl, osl) profile. -/
def seqLenSkip (seq_lens : Option (List String)) (isl osl : Int) : Bool :=
  if truthyList seq_lens then
    let ps := seqLenPairs (seq_lens.getD [])
    !ps.isEmpty && !(ps.any (fun p => p.1 == isl && p.2 == osl))
  else false

/-- Config-level filters of the full sweep (model-prefix by key-prefix match,
precision, framework, runner-type membership); true means skip the config. -/
def fullSkip (args : FullSweepArgs) (key : String) (val : ConfigVal) : Bool :=
  (truthyList args.model_prefixes && !((args.model_prefixes.getD []).any (fun p => p.isPrefixOf key))) ||
  (truthyList args.precision && !((args.precision.getD []).contains val.precision)) ||
  (truthyList args.framework && !((args.framework.getD []).contains val.framework)) ||
  (truthyList args.runner_type && !((args.runner_type.getD []).contains val.runner))

/-- Runner nodes fan-out: with a truthy node filter, the config's runner type
expands to the catalog nodes containing the substring (none matching skips the
config, i.e. `none`); without a filter the declared runner value is used as a
single node. -/
def runnersToUse (rnf : Option String) (runner_nodes : List String)
    (runner : String) : Option (List String) :=
  if truthyStr rnf then
    let f := runner_nodes.filter (fun n => containsSubstr n (rnf.getD ""))
    if f.isEmpty then none else some f
  else some [runner]

/-- Full-sweep processing of one catalog config: config filters, runner-node
resolution, then per profile (seq-lens filter) and per search-space point the
multinode or single-node loop body according to the config's multinode flag
(a point of the other shape would raise KeyError in Python and cannot occur in
a schema-validated config; it contributes nothing here). -/
def processConfig (args : FullSweepArgs) (runner_data : List (String × List String))
    (key : String) (val : ConfigVal) : List MatrixEntry :=
  if fullSkip args key val then []
  else
    match runnersToUse args.runner_node_filter ((lookupAssoc runner_data val.runner).getD []) val.runner with
    | none => []
    | some runnersForEntry =>
      let ctx : CfgCtx :=
        ⟨val.image, val.model, val.model_code, val.precision, val.framework, val.disagg⟩
      val.seq_len_configs.flatMap (fun sc =>
        if seqLenSkip args.seq_lens sc.isl sc.osl then []
        else
          sc.search_space.flatMap (fun bmk =>
            if val.multinode then
              match bmk with
              | Bmk.multi mb => processMultiBmk args ctx runnersForEntry sc.isl sc.osl mb
              | Bmk.single _ => []
            else
              match bmk with
              | Bmk.single sb => processSingleBmk args ctx runnersForEntry sc.isl sc.osl sb
              | Bmk.multi _ => []))

/-- generate_full_sweep: validate the runner-type filter against the runner
catalog, then expand every config in catalog order. -/
def generate_full_sweep (args : FullSweepArgs) (all_config_data : List (String × ConfigVal))
    (runner_data : List (String × List String)) : Except GenError (List MatrixEntry) :=
  let invalid :=
    if truthyList args.runner_type then
      (args.runner_type.getD []).filter (fun r => !((runner_data.map Prod.fst).contains r))
    else []
  if !invalid.isEmpty then
    Except.error (GenError.invalidRunnerTypes invalid (runner_data.map Prod.fst))
  else
    Except.ok (all_config_data.flatMap (fun kv => processConfig args runner_data kv.1 kv.2))

/-- Python max over a non-empty list of ints (none on the empty list, where
Python raises ValueError). -/
def pyMax : List Int → Option Int
  | [] => none
  | h :: t => some (t.foldl (fun a b => max a b) h)

/-- Python min over a non-empty list of ints. -/
def pyMin : List Int → Option Int
  | [] => none
  | h :: t => some (t.foldl (fun a b => min a b) h)

/-- Python max(iterable, key=f): the first element with maximal key (the
running best is replaced only by a strictly greater key). -/
def firstMaxBy {α : Type _} (f : α → Int) : List α → Option α
  | [] => none
  | h :: t => some (t.foldl (fun best cand => if f cand > f best then cand else best) h)

/-- Ordering on optional keys where none stands for float('inf'). -/
def optLt : Option Int → Option Int → Bool
  | some a, some b => a < b
  | some _, none => true
  | none, _ => false

/-- Python min(iterable, key=f) with possibly-infinite keys: the first element
with minimal key. -/
def firstMinByOpt {α : Type _} (f : α → Option Int) : List α → Option α
  | [] => none
  | h :: t => some (t.foldl (fun best cand => if optLt (f cand) (f best) then cand else best) h)

/-- tp of a search-space point as read by the runner-model-sweep single-node
branch (a multinode-shaped point would raise KeyError; schema-excluded). -/
def bmkTp : Bmk → Int
  | Bmk.single s => s.tp
  | Bmk.multi _ => 0

/-- get_lowest_conc: minimum of the point's conc-list when truthy, else
float('inf') (modelled as none). -/
def lowestConcKey : Bmk → Option Int
  | Bmk.multi mb => pyMin (mb.conc_list.getD [])
  | Bmk.single s => pyMin (s.conc_list.getD [])

/-- Single-node matrix entry of the runner-model-sweep: fixed isl = osl = 1024,
fixed max_model_len = 2048 and experiment name "model_code_test". -/
def mkRunnerSingleEntry (val : ConfigVal) (node : String) (hb : BmkSingle)
    (conc_value : Int) : MatrixEntry :=
  { image := val.image, model := val.model, model_code := val.model_code,
    precision := val.precision, framework := val.framework, runner := node,
    isl := 1024, osl := 1024, tp := some hb.tp, ep := some (hb.ep.getD 1),
    dp_attn := some (hb.dp_attn.getD false),
    spec_decoding := hb.spec_decoding.getD "none",
    prefill := none, decode := none, conc := ConcVal.scalar conc_value,
    max_model_len := 2048, exp_name := val.model_code ++ "_test",
    disagg := val.disagg, run_eval := false }

/-- Multinode matrix entry of the runner-model-sweep: conc is the one-element
list [conc_value], max_model_len is fixed at 2048 (the prefill/decode records
are rebuilt key by key in the source, which reproduces them unchanged since
additional-settings already defaults to []). -/
def mkRunnerMultiEntry (val : ConfigVal) (node : String) (lb : BmkMulti)
    (conc_value : Int) : MatrixEntry :=
  { image := val.image, model := val.model, model_code := val.model_code,
    precision := val.precision, framework := val.framework, runner := node,
    isl := 1024, osl := 1024, spec_decoding := lb.spec_decoding.getD "none",
    prefill := some lb.prefill, decode := some lb.decode,
    conc := ConcVal.clist [conc_value],
    max_model_len := 2048, exp_name := val.model_code ++ "_test",
    disagg := val.disagg, run_eval := false }

/-- Concurrency resolution of the runner-model-sweep single-node branch: the
caller override when given, else the point's conc-start if truthy (nonzero),
else the minimum of its conc-list defaulting to [1] (Python's `get(...) or
min(get(..., [1]))`; min of an explicitly empty list would raise, modelled by
the final getD). -/
def rmsSingleConc (args : RunnerSweepArgs) (hb : BmkSingle) : Int :=
  match args.conc with
  | some c => c
  | none =>
    if hb.conc_start != 0 then hb.conc_start
    else (pyMin (hb.conc_list.getD [1])).getD 0

/-- Single-node branch of the runner-model-sweep for one config: pick the
search-space point with the highest tp (first on ties), then one entry per
runner node, all at that tp and the resolved concurrency. -/
def runnerSweepSingle (args : RunnerSweepArgs) (nodes : List String)
    (val : ConfigVal) (tc : SeqConfig) : List MatrixEntry :=
  match firstMaxBy bmkTp tc.search_space with
  | some (Bmk.single hb) =>
    nodes.map (fun node => mkRunnerSingleEntry val node hb (rmsSingleConc args hb))
  | _ => []

/-- Multinode branch of the runner-model-sweep for one config: pick the
search-space point with the lowest concurrency (conc-list minimum, infinite
when absent or empty); the concurrency is the caller override when given, else
the minimum of that point's conc-list, else its conc-start when present, else
1; then one entry per runner node. -/
def runnerSweepMulti (args : RunnerSweepArgs) (nodes : List String)
    (val : ConfigVal) (tc : SeqConfig) : List MatrixEntry :=
  match firstMinByOpt lowestConcKey tc.search_space with
  | some (Bmk.multi lb) =>
    let cl := lb.conc_list.getD []
    let conc_value : Int :=
      match args.conc with
      | some c => c
      | none =>
        if !cl.isEmpty then (pyMin cl).getD 0
        else
          match lb.conc_start with
          | some s => s
          | none => 1
    nodes.map (fun node => mkRunnerMultiEntry val node lb conc_value)
  | _ => []

/-- Skip decision of the runner-model-sweep config loop: wrong runner type,
failing model-prefix/precision/framework filters, or a multinode flag that
disagrees with the requested node mode. -/
def rmsSkip (args : RunnerSweepArgs) (key : String) (val : ConfigVal) : Bool :=
  (val.runner != args.runner_type) ||
  (truthyList args.model_prefixes && !((args.model_prefixes.getD []).any (fun p => p.isPrefixOf key))) ||
  (truthyList args.precision && !((args.precision.getD []).contains val.precision)) ||
  (truthyList args.framework && !((args.framework.getD []).contains val.framework)) ||
  (args.single_node && val.multinode) ||
  (args.multi_node && !val.multinode)

/-- Runner-model-sweep processing of one config: after the skip filters,
locate the first profile with isl = osl = 1024 (no such profile skips the
config), then run the branch matching the multinode flag. -/
def processRunnerSweepConfig (args : RunnerSweepArgs) (nodes : List String)
    (key : String) (val : ConfigVal) : List MatrixEntry :=
  if rmsSkip args key val then []
  else
    match val.seq_len_configs.find? (fun c => c.isl == 1024 && c.osl == 1024) with
    | none => []
    | some tc =>
      if val.multinode then runnerSweepMulti args nodes val tc
      else runnerSweepSingle args nodes val tc

/-- generate_runner_model_sweep_config: resolve the runner type to its node
list (error when unknown or empty), optionally narrow by the node filter
(error when nothing matches), then expand every config in catalog order. -/
def generate_runner_model_sweep_config (args : RunnerSweepArgs)
    (all_config_data : List (String × ConfigVal))
    (runner_data : List (String × List String)) : Except GenError (List MatrixEntry) :=
  let nodes0 := (lookupAssoc runner_data args.runner_type).getD []
  if nodes0.isEmpty then
    Except.error (GenError.unknownRunnerType args.runner_type (runner_data.map Prod.fst))
  else if truthyStr args.runner_node_filter then
    let f := nodes0.filter (fun n => containsSubstr n (args.runner_node_filter.getD ""))
    if f.isEmpty then
      Except.error (GenError.noNodesMatchFilter (args.runner_node_filter.getD "") args.runner_type)
    else
      Except.ok (all_config_data.flatMap (fun kv => processRunnerSweepConfig args f kv.1 kv.2))
  else
    Except.ok (all_config_data.flatMap (fun kv => processRunnerSweepConfig args nodes0 kv.1 kv.2))

/-- Test-config concurrency allow-list: a truthy --conc list keeps only exact
members; an emptied list drops the point (none). -/
def filterAllowConc (allow : Option (List Int)) (l : List Int) : Option (List Int) :=
  if truthyList allow then
    let f := l.filter (fun c => (allow.getD []).contains c)
    if f.isEmpty then none else some f
  else some l

/-- Filter-and-emit tail of the test-config single-node expansion: the
allow-list filter, then one entry per surviving value. -/
def testEmitSingle (allow : Option (List Int)) (ctx : CfgCtx) (runner : String)
    (isl osl : Int) (sb : BmkSingle) (conc_values : List Int) : List MatrixEntry :=
  match filterAllowConc allow conc_values with
  | none => []
  | some cvs =>
    cvs.map (fun conc =>
      mkSingleEntry ctx runner isl osl sb.tp conc sb.ep sb.dp_attn (sb.spec_decoding.getD "none"))

/-- Test-config expansion of one single-node point: conc-list by key presence
(membership, not truthiness), otherwise range expansion with the fixed step 2;
then the allow-list filter and one entry per value. -/
def testBmkSingle (allow : Option (List Int)) (ctx : CfgCtx) (runner : String)
    (isl osl : Int) (sb : BmkSingle) : List MatrixEntry :=
  testEmitSingle allow ctx runner isl osl sb
    (match sb.conc_list with
     | some l => l
     | none => (expandConcRange sb.conc_start sb.conc_end 2).getD [])

/-- Filter-and-emit tail of the test-config multinode expansion: the
allow-list filter, then a single entry carrying the whole surviving list. -/
def testEmitMulti (allow : Option (List Int)) (ctx : CfgCtx) (runner : String)
    (isl osl : Int) (mb : BmkMulti) (conc_values : List Int) : List MatrixEntry :=
  match filterAllowConc allow conc_values with
  | none => []
  | some cvs =>
    [mkMultiEntry ctx runner isl osl (mb.spec_decoding.getD "none") mb.prefill mb.decode cvs]

/-- Test-config expansion of one multinode point: conc-list by key presence,
otherwise range expansion with the fixed step 2; then the allow-list filter and
a single entry carrying the whole list. -/
def testBmkMulti (allow : Option (List Int)) (ctx : CfgCtx) (runner : String)
    (isl osl : Int) (mb : BmkMulti) : List MatrixEntry :=
  testEmitMulti allow ctx runner isl osl mb
    (match mb.conc_list with
     | some l => l
     | none => (expandConcRange (mb.conc_start.getD 0) (mb.conc_end.getD 0) 2).getD [])

/-- Catalog keys sorted for the missing-keys error message. -/
def sortedKeys (cat : List (String × ConfigVal)) : List String :=
  (cat.map Prod.fst).insertionSort (fun a b => a ≤ b)

/-- generate_test_config_sweep: raise (naming every missing key and listing
all available keys, sorted) when any requested key is absent; otherwise expand
every named config fully without filtering. -/
def generate_test_config_sweep (args : TestConfigArgs)
    (all_config_data : List (String × ConfigVal)) : Except GenError (List MatrixEntry) :=
  let missing := args.config_keys.filter (fun k => !containsKey all_config_data k)
  if !missing.isEmpty then
    Except.error (GenError.missingConfigKeys missing (sortedKeys all_config_data))
  else
    Except.ok (args.config_keys.flatMap (fun k =>
      match lookupAssoc all_config_data k with
      | none => []
      | some val =>
        let ctx : CfgCtx :=
          ⟨val.image, val.model, val.model_code, val.precision, val.framework, val.disagg⟩
        val.seq_len_configs.flatMap (fun sc =>
          sc.search_space.flatMap (fun bmk =>
            if val.multinode then
              match bmk with
              | Bmk.multi mb => testBmkMulti args.conc ctx val.runner sc.isl sc.osl mb
              | Bmk.single _ => []
            else
              match bmk with
              | Bmk.single sb => testBmkSingle args.conc ctx val.runner sc.isl sc.osl sb
              | Bmk.multi _ => []))))

/-- Top-level tp of an entry as compared by mark_eval_entries (only read on
entries that carry the key, i.e. tp = some _). -/
def tpD (e : MatrixEntry) : Int := e.tp.getD 0

/-- Concurrency of an entry as compared by mark_eval_entries (only read on
eligible entries, whose single-node schema makes it a scalar; a list here would
raise TypeError in Python's max and cannot occur in a validated matrix). -/
def concD (e : MatrixEntry) : Int :=
  match e.conc with
  | ConcVal.scalar n => n
  | ConcVal.clist _ => 0

/-- Eligibility for eval selection: a top-level tp key and the fixed 1k8k
sequence lengths (isl, osl) = (1024, 8192). -/
def evalEligible (e : MatrixEntry) : Bool :=
  e.tp.isSome && (e.isl == 1024 && e.osl == 8192)

/-- Grouping key of eval selection. -/
def groupKey (e : MatrixEntry) : String × String × String × String × Int × Int × String :=
  (e.model, e.runner, e.framework, e.precision, e.isl, e.osl, e.spec_decoding)

/-- Append one indexed entry to its group in an association list of groups,
creating the group at the end when the key is new (defaultdict(list) with
insertion order). -/
def addToGroups (gs : List ((String × String × String × String × Int × Int × String) × List (Nat × MatrixEntry)))
    (k : String × String × String × String × Int × Int × String) (v : Nat × MatrixEntry) :
    List ((String × String × String × String × Int × Int × String) × List (Nat × MatrixEntry)) :=
  match gs with
  | [] => [(k, [v])]
  | g :: rest => if g.1 = k then (g.1, g.2 ++ [v]) :: rest else g :: addToGroups rest k v

/-- Grouping loop of mark_eval_entries over the enumerated matrix, skipping
entries without a top-level tp or off the 1k8k lengths. -/
def buildGroupsAux (i : Nat) (es : List MatrixEntry)
    (gs : List ((String × String × String × String × Int × Int × String) × List (Nat × MatrixEntry))) :
    List ((String × String × String × String × Int × Int × String) × List (Nat × MatrixEntry)) :=
  match es with
  | [] => gs
  | e :: rest =>
    buildGroupsAux (i + 1) rest (if evalEligible e then addToGroups gs (groupKey e) (i, e) else gs)

/-- Groups of eligible entries keyed by (model, runner, framework, precision,
isl, osl, spec-decoding), in first-appearance order. -/
def buildGroups (m : List MatrixEntry) :
    List ((String × String × String × String × Int × Int × String) × List (Nat × MatrixEntry)) :=
  buildGroupsAux 0 m []

/-- Indices marked within one group: every highest-tp entry at the highest
concurrency among highest-tp entries, plus — only when the group's lowest tp
differs from its highest — every lowest-tp entry at the highest concurrency
among lowest-tp entries. -/
def groupMarks (vs : List (Nat × MatrixEntry)) : List Nat :=
  match pyMin (vs.map (fun p => tpD p.2)), pyMax (vs.map (fun p => tpD p.2)) with
  | some min_tp, some max_tp =>
    let highest := vs.filter (fun p => tpD p.2 == max_tp)
    let m1 :=
      match pyMax (highest.map (fun p => concD p.2)) with
      | some mc => (highest.filter (fun p => concD p.2 == mc)).map Prod.fst
      | none => []
    let m2 :=
      if min_tp != max_tp then
        let lowest := vs.filter (fun p => tpD p.2 == min_tp)
        match pyMax (lowest.map (fun p => concD p.2)) with
        | some mc => (lowest.filter (fun p => concD p.2 == mc)).map Prod.fst
        | none => []
      else []
    m1 ++ m2
  | _, _ => []

/-- All eval indices of a matrix (the union over groups; a list with the same
membership as the Python set). -/
def evalIndices (m : List MatrixEntry) : List Nat :=
  (buildGroups m).flatMap (fun g => groupMarks g.2)

/-- Final marking loop: set run_eval on every entry to membership of its index
in the selected set. -/
def markAux (idxs : List Nat) (i : Nat) : List MatrixEntry → List MatrixEntry
  | [] => []
  | e :: rest => { e with run_eval := idxs.contains i } :: markAux idxs (i + 1) rest

/-- mark_eval_entries: the eval selection pass over an expanded matrix. -/
def mark_eval_entries (m : List MatrixEntry) : List MatrixEntry :=
  markAux (evalIndices m) 0 m

/-- Grouping key type of eval selection. -/
abbrev GKey := String × String × String × String × Int × Int × String

/-- Entry list of a group by key in the group association list (empty when the
key is absent). -/
def lookupG (gs : List (GKey × List (Nat × MatrixEntry))) (k : GKey) :
    List (Nat × MatrixEntry) :=
  ((gs.find? (fun g => decide (g.1 = k))).map Prod.snd).getD []

/-- The indexed eligible entries with a given grouping key, starting at index
i: the contents the grouping loop accumulates for that key. -/
def idxFilter (k : GKey) : Nat → List MatrixEntry → List (Nat × MatrixEntry)
  | _, [] => []
  | i, e :: rest =>
    if evalEligible e = true ∧ groupKey e = k then (i, e) :: idxFilter k (i + 1) rest
    else idxFilter k (i + 1) rest

/-- Eligible entries of a matrix sharing a grouping key (stated from the
claim's words: the group of an entry under eval selection). -/
def evalGroupK (m : List MatrixEntry)
    (k : String × String × String × String × Int × Int × String) : List MatrixEntry :=
  m.filter (fun x => evalEligible x && decide (groupKey x = k))

/-- Marking rule stated from the claim's words: an entry is marked exactly
when it is eligible and, within its group, either it is at the maximum tp with
the maximum concurrency among maximum-tp entries, or the group's minimum tp
differs from its maximum and the entry is at the minimum tp with the maximum
concurrency among minimum-tp entries. -/
def markedBySpec (m : List MatrixEntry) (e : MatrixEntry) : Prop :=
  evalEligible e = true ∧
  (((∀ x ∈ evalGroupK m (groupKey e), tpD x ≤ tpD e) ∧
      (∀ x ∈ evalGroupK m (groupKey e), tpD x = tpD e → concD x ≤ concD e)) ∨
   ((∃ x ∈ evalGroupK m (groupKey e), tpD x ≠ tpD e) ∧
      (∀ x ∈ evalGroupK m (groupKey e), tpD e ≤ tpD x) ∧
      (∀ x ∈ evalGroupK m (groupKey e), tpD x = tpD e → concD x ≤ concD e)))

/-- Increasing with at most a repeated final value: adjacent values never
decrease, and every adjacent pair before the last is strictly increasing. -/
def strictIncrExceptFinalRepeat (l : List Int) : Prop :=
  List.Chain' (fun a b => a ≤ b) l ∧ List.Chain' (fun a b => a < b) l.dropLast

/-- Multinode concurrency narrowing stated from the amended claim: min_conc
must be positive (else the point is dropped) and filters the list, dropping
the point when nothing survives; max_conc then filters the list, and when
nothing survives the point is replaced by the single value [max_conc] if
max_conc is positive and dropped otherwise. -/
def specMultiConcFilter (min_conc max_conc : Option Int) (l : List Int) : Option (List Int) :=
  let l1 : Option (List Int) :=
    match min_conc with
    | none => some l
    | some m =>
      if m ≤ 0 then none
      else
        let f := l.filter (fun c => m ≤ c)
        if f.isEmpty then none else some f
  match l1 with
  | none => none
  | some l2 =>
    match max_conc with
    | none => some l2
    | some M =>
      let f := l2.filter (fun c => c ≤ M)
      if f.isEmpty then (if 0 < M then some [M] else none) else some f

/-- Fixture: config metadata for full-sweep loop-body tests. -/
def fxCtx : CfgCtx :=
  ⟨"img", "mod", "mp", "fp8", "vllm", false⟩

/-- Fixture: a prefill/decode worker record. -/
def fxNode : NodeCfg :=
  ⟨1, 8, 8, false, []⟩

/-- Fixture: full-sweep arguments for the multinode max-conc counterexample. -/
def fxArgsC2 : FullSweepArgs :=
  { multi_node := true, max_conc := some 4 }

/-- Fixture: multinode point with the already-expanded list [8, 16], every
value above the max-conc bound 4. -/
def fxBmkC2 : BmkMulti :=
  { prefill := fxNode, decode := fxNode, conc_list := some [8, 16] }

/-- Fixture: single-node point with tp = 4 and range (1, 64). -/
def fxHb : BmkSingle :=
  { tp := 4, conc_start := 1, conc_end := 64 }

/-- Fixture: single-node config with one 1k1k profile, for runner-model-sweep. -/
def fxVal : ConfigVal :=
  { image := "img", model := "mod", model_code := "mp", precision := "fp8",
    framework := "vllm", runner := "h100",
    seq_len_configs := [⟨1024, 1024, [Bmk.single fxHb]⟩] }

/-- Fixture: runner-model-sweep arguments requesting single-node h100. -/
def fxArgsRms : RunnerSweepArgs :=
  { runner_type := "h100", single_node := true }

/-- Fixture: runner catalog with two h100 nodes. -/
def fxRunnerData : List (String × List String) :=
  [("h100", ["n1", "n2"])]

/-- Fixture: one-config catalog. -/
def fxCat : List (String × ConfigVal) :=
  [("cfg", fxVal)]

/-- Fixture: single-node point whose conc-start is the falsy value 0. -/
def fxHb0 : BmkSingle :=
  { tp := 4, conc_start := 0, conc_end := 64 }

/-- Fixture: config like fxVal but with the conc-start 0 point. -/
def fxVal0 : ConfigVal :=
  { image := "img", model := "mod", model_code := "mp", precision := "fp8",
    framework := "vllm", runner := "h100",
    seq_len_configs := [⟨1024, 1024, [Bmk.single fxHb0]⟩] }

/-- Fixture: one-config catalog around fxVal0. -/
def fxCat0 : List (String × ConfigVal) :=
  [("cfg", fxVal0)]

/-- Fixture: synthetic eligible single-node entry at 1k8k with the given tp
and concurrency. -/
def synthEntry (tp conc : Int) : MatrixEntry :=
  { image := "i", model := "m", model_code := "mc", precision := "p",
    framework := "f", runner := "r", isl := 1024, osl := 8192,
    tp := some tp, ep := some 1, dp_attn := some false, spec_decoding := "none",
    conc := ConcVal.scalar conc, max_model_len := 9416, exp_name := "mc_1k8k",
    disagg := false, run_eval := false }

/-- Fixture: the synthetic group of the claim — tp 8 at concurrencies
1, 2, 4, 8 and tp 1 at concurrencies 1, 2, all at (1024, 8192). -/
def synthMatrix : List MatrixEntry :=
  [synthEntry 8 1, synthEntry 8 2, synthEntry 8 4, synthEntry 8 8,
   synthEntry 1 1, synthEntry 1 2]

/-- Fixture: the expected marking of synthMatrix — exactly (tp 8, conc 8) and
(tp 1, conc 2). -/
def synthExpected : List MatrixEntry :=
  [synthEntry 8 1, synthEntry 8 2, synthEntry 8 4,
   { synthEntry 8 8 with run_eval := true },
   synthEntry 1 1, { synthEntry 1 2 with run_eval := true }]

/-- Fixture: an entry off the 1k8k lengths (isl = 512), hence never eligible. -/
def synthOff : MatrixEntry :=
  { synthEntry 8 1 with isl := 512 }

/-- Fixture: full-sweep arguments for the single-node clamp witness. -/
def fxArgsC6 : FullSweepArgs :=
  { single_node := true, max_tp := some 4 }

/-- Fixture: single-node point with tp = 8 and the degenerate range (1, 1). -/
def fxBmkC6 : BmkSingle :=
  { tp := 8, conc_start := 1, conc_end := 1 }

/-- Fixture: test-config arguments requesting a key absent from fxCat. -/
def fxTestArgs : TestConfigArgs :=
  { config_keys := ["missing1"] }

/-- Fixture: test-config arguments requesting the key present in fxCat. -/
def fxTestArgsOk : TestConfigArgs :=
  { config_keys := ["cfg"] }

/-- Within enough fuel, the concurrency loop started at a positive value not
above the end terminates with a list that starts at the start value, ends
exactly at the end value, never decreases, and increases strictly before its
final step. -/
theorem concLoop_spec (step : Int) (hstep : 2 ≤ step) :
    ∀ (fuel : Nat) (conc cend : Int), 1 ≤ conc → conc ≤ cend → (cend - conc).toNat < fuel →
      ∃ l, concLoop step fuel conc cend = some l ∧ l.head? = some conc ∧
        l.getLast? = some cend ∧ strictIncrExceptFinalRepeat l := by
  intro fuel
  induction fuel with
  | zero => intro conc cend h1 h2 h3; omega
  | succ n ih =>
    intro conc cend h1 h2 h3
    by_cases heq : conc = cend
    · refine ⟨[conc], ?_, rfl, by simp [heq], ?_, ?_⟩
      · simp [concLoop, h2, heq]
      · exact List.chain'_singleton conc
      · simp [List.dropLast]
    · have hlt : conc < cend := lt_of_le_of_ne h2 heq
      have hmul : conc + 1 ≤ conc * step := by nlinarith
      have hnext1 : conc < if conc * step > cend then cend else conc * step := by
        by_cases hc : conc * step > cend
        · simpa [hc] using hlt
        · simp only [hc, if_false]; omega
      have hnextle : (if conc * step > cend then cend else conc * step) ≤ cend := by
        by_cases hc : conc * step > cend
        · simp [hc]
        · simp only [hc, if_false]; omega
      obtain ⟨l2, hl2, hhead, hlast, hch1, hch2⟩ :=
        ih (if conc * step > cend then cend else conc * step) cend (by omega) hnextle (by omega)
      refine ⟨conc :: l2, ?_, rfl, ?_, ?_, ?_⟩
      · simp only [concLoop, if_pos h2, if_neg heq, hl2]; rfl
      · cases l2 with
        | nil => simp at hhead
        | cons a t => simpa using hlast
      · rw [List.chain'_cons']
        exact ⟨fun y hy => by rw [hhead] at hy; cases hy; omega, hch1⟩
      · cases l2 with
        | nil => simp at hhead
        | cons a t =>
          have hdl : (conc :: a :: t).dropLast = conc :: (a :: t).dropLast := rfl
          rw [hdl, List.chain'_cons']
          refine ⟨fun y hy => ?_, hch2⟩
          cases t with
          | nil => simp at hy
          | cons b t2 =>
            have : (a :: b :: t2).dropLast = a :: (b :: t2).dropLast := rfl
            rw [this] at hy
            cases hy
            have : a = if conc * step > cend then cend else conc * step := by
              simpa using hhead
            omega

/-- Claim C1 (amended: the start must additionally be positive, `1 ≤ start`):
for every start, end, step with 1 ≤ start ≤ end and step > 1, the
concurrency-range expansion terminates and returns a sequence that is strictly
increasing except possibly a repeated final value and whose last element
equals end; and (start, end, step) = (1, 100, 2) yields
[1, 2, 4, 8, 16, 32, 64, 100]. -/
theorem conc_range_expansion_correct :
    (∀ cstart cend step : Int, 1 ≤ cstart → cstart ≤ cend → 1 < step →
      ∃ l, expandConcRange cstart cend step = some l ∧
        l.getLast? = some cend ∧ strictIncrExceptFinalRepeat l) ∧
    expandConcRange 1 100 2 = some [1, 2, 4, 8, 16, 32, 64, 100] := by
  constructor
  · intro cstart cend step h1 h2 h3
    obtain ⟨l, hl, _, hlast, hchain⟩ :=
      concLoop_spec step (by omega) ((cend - cstart).toNat + 1) cstart cend h1 h2 (by omega)
    exact ⟨l, hl, hlast, hchain⟩
  · decide

/-- Witness for C1: the amended theorem applied at (start, end, step)
= (3, 20, 2). -/
theorem conc_range_expansion_correct_witness :
    ∃ l, expandConcRange 3 20 2 = some l ∧
      l.getLast? = some 20 ∧ strictIncrExceptFinalRepeat l :=
  conc_range_expansion_correct.1 3 20 2 (by decide) (by decide) (by decide)

/-- Counterexample for C1 as stated: at (start, end, step) = (0, 5, 2), where
0 ≤ 5 and 2 > 1, the expansion returns no sequence at all (the loop never
terminates), so in particular no sequence ending in 5. -/
theorem conc_range_expansion_start_zero : expandConcRange 0 5 2 = none := by decide

/-- The failure at start 0 is not a fuel artifact: with start 0 the running
value stays 0 forever, so no amount of fuel completes the loop. -/
theorem concLoop_start_zero_diverges : ∀ fuel : Nat, concLoop 2 fuel 0 5 = none := by
  intro fuel
  induction fuel with
  | zero => rfl
  | succ n ih =>
    show (if (0 : Int) ≤ 5 then
        if (0 : Int) = 5 then some [0]
        else (concLoop 2 n (if (0 : Int) * 2 > 5 then 5 else 0 * 2) 5).map (fun rest => (0 : Int) :: rest)
      else some []) = none
    norm_num [ih]

/-- Counterexample for C2 as stated: with max_conc = 4 and the already-expanded
multinode concurrency list [8, 16] — every value exceeding the positive bound —
the point is not dropped: one entry per runner is still emitted, carrying the
replaced list [4]. -/
theorem multinode_max_conc_replaces_not_drops :
    processMultiBmk fxArgsC2 fxCtx ["r"] 1024 1024 fxBmkC2 ≠ [] ∧
    (processMultiBmk fxArgsC2 fxCtx ["r"] 1024 1024 fxBmkC2).map (fun e => e.conc) =
      [ConcVal.clist [4]] := by
  exact ⟨by decide, by decide⟩

/-- Claim C2 (amended): in the multinode branch of full-sweep, for a point
whose concurrency list is already expanded, min_conc (when given) must be
positive or the point is dropped, and filters the list to values ≥ min_conc,
dropping the point when nothing survives; max_conc then filters to values
≤ max_conc, but an emptied result replaces the list with the single value
[max_conc] when max_conc > 0 and drops the point only when max_conc ≤ 0. -/
theorem multinode_conc_filter_semantics :
    ∀ (args : FullSweepArgs) (ctx : CfgCtx) (runners : List String) (isl osl : Int)
      (mb : BmkMulti) (l : List Int),
      args.multi_node = true → mb.conc_list = some l → l ≠ [] →
      processMultiBmk args ctx runners isl osl mb =
        match specMultiConcFilter args.min_conc args.max_conc l with
        | none => []
        | some cvs =>
          runners.map (fun rv =>
            mkMultiEntry ctx rv isl osl (mb.spec_decoding.getD "none") mb.prefill mb.decode cvs) := by
  intro args ctx runners isl osl mb l hm hcl hne
  have hle : l.isEmpty = false := by
    cases l with
    | nil => exact absurd rfl hne
    | cons a t => rfl
  have hspec : specMultiConcFilter args.min_conc args.max_conc l =
      (match multiMinConc args.min_conc l with
       | none => none
       | some l2 => multiMaxConc args.max_conc l2) := by
    unfold specMultiConcFilter multiMinConc multiMaxConc
    rfl
  simp only [processMultiBmk, hm, hcl, hle, Bool.not_true, Bool.false_eq_true, if_false, hspec]
  unfold multiEmitStage
  cases h1 : multiMinConc args.min_conc l with
  | none => rfl
  | some cv1 =>
    cases h2 : multiMaxConc args.max_conc cv1 with
    | none => rfl
    | some cv2 => rfl

/-- Witness for C2: the amended theorem applied to the list [8, 16] under
max_conc = 4, where the filter empties and the point survives as [4]. -/
theorem multinode_conc_filter_semantics_witness :
    specMultiConcFilter fxArgsC2.min_conc fxArgsC2.max_conc [8, 16] = some [4] ∧
    processMultiBmk fxArgsC2 fxCtx ["r"] 1024 1024 fxBmkC2 =
      match specMultiConcFilter fxArgsC2.min_conc fxArgsC2.max_conc [8, 16] with
      | none => []
      | some cvs =>
        ["r"].map (fun rv =>
          mkMultiEntry fxCtx rv 1024 1024 (fxBmkC2.spec_decoding.getD "none")
            fxBmkC2.prefill fxBmkC2.decode cvs) :=
  ⟨by decide,
   multinode_conc_filter_semantics fxArgsC2 fxCtx ["r"] 1024 1024 fxBmkC2 [8, 16]
     (by decide) (by decide) (by decide)⟩

/-- Claim C6: in single-node full-sweep, a max_tp bound ≤ 0 drops the point
entirely; a positive max_tp that is exceeded clamps tp in place — processing
continues exactly as if the point carried tp = max_tp and no max_tp bound were
given; and the same clamp-in-place rule applies to ep versus a positive
max_ep. -/
theorem single_node_clamp_semantics :
    (∀ (args : FullSweepArgs) (ctx : CfgCtx) (runners : List String) (isl osl : Int)
        (bmk : BmkSingle) (t : Int), args.max_tp = some t → t ≤ 0 →
        processSingleBmk args ctx runners isl osl bmk = []) ∧
    (∀ (args : FullSweepArgs) (ctx : CfgCtx) (runners : List String) (isl osl : Int)
        (bmk : BmkSingle) (t : Int), args.max_tp = some t → 0 < t → bmk.tp > t →
        processSingleBmk args ctx runners isl osl bmk =
          processSingleBmk { args with max_tp := none } ctx runners isl osl
            { bmk with tp := t }) ∧
    (∀ (args : FullSweepArgs) (ctx : CfgCtx) (runners : List String) (isl osl : Int)
        (bmk : BmkSingle) (u e : Int), args.max_ep = some u → 0 < u →
        bmk.ep = some e → e > u →
        processSingleBmk args ctx runners isl osl bmk =
          processSingleBmk { args with max_ep := none } ctx runners isl osl
            { bmk with ep := some u }) := by
  refine ⟨?_, ?_, ?_⟩
  · intro args ctx runners isl osl bmk t ht ht0
    by_cases hs : args.single_node
    · simp [processSingleBmk, hs, ht, ht0]
    · simp [processSingleBmk, hs]
  · intro args ctx runners isl osl bmk t ht htpos htgt
    by_cases hs : args.single_node
    · simp [processSingleBmk, hs, ht, not_le.mpr htpos, htgt]
    · simp [processSingleBmk, hs]
  · intro args ctx runners isl osl bmk u e hu hupos hep hegt
    by_cases hs : args.single_node
    · cases hmt : args.max_tp with
      | none =>
        simp [processSingleBmk, hs, hmt, singleEpStage, hu, not_le.mpr hupos, hep, hegt]
      | some t =>
        by_cases ht0 : t ≤ 0
        · simp [processSingleBmk, hs, hmt, ht0]
        · simp [processSingleBmk, hs, hmt, ht0, singleEpStage, hu, not_le.mpr hupos, hep, hegt]
    · simp [processSingleBmk, hs]

/-- Witness for C6: the clamp conjunct applied at max_tp = 4 on a point with
tp = 8, plus the evaluation showing the point is emitted with tp = 4. -/
theorem single_node_clamp_semantics_witness :
    (processSingleBmk fxArgsC6 fxCtx ["r"] 1024 1024 fxBmkC6 =
      processSingleBmk { fxArgsC6 with max_tp := none } fxCtx ["r"] 1024 1024
        { fxBmkC6 with tp := 4 }) ∧
    (processSingleBmk fxArgsC6 fxCtx ["r"] 1024 1024 fxBmkC6).map (fun e => e.tp) =
      [some 4] :=
  ⟨single_node_clamp_semantics.2.1 fxArgsC6 fxCtx ["r"] 1024 1024 fxBmkC6 4
     (by decide) (by decide) (by decide),
   by decide⟩

/-- Every entry of the innermost single-node emission is a mkSingleEntry with
the given fixed parameters and some runner and concurrency. -/
theorem mem_singleLoopEmit {step : Int} {ctx : CfgCtx} {runners : List String}
    {isl osl tp : Int} {ep : Option Int} {dp : Option Bool} {sd : String}
    {cstart cend : Int} {e : MatrixEntry}
    (h : e ∈ singleLoopEmit step ctx runners isl osl tp ep dp sd cstart cend) :
    ∃ rv conc, e = mkSingleEntry ctx rv isl osl tp conc ep dp sd := by
  simp only [singleLoopEmit, List.mem_flatMap, List.mem_map] at h
  obtain ⟨conc, _, rv, _, hrv⟩ := h
  exact ⟨rv, conc, hrv.symm⟩

/-- Every entry surviving the full single-node filter pipeline is a
mkSingleEntry of the same config context and sequence lengths. -/
theorem processSingleBmk_shape {args : FullSweepArgs} {ctx : CfgCtx}
    {runners : List String} {isl osl : Int} {bmk : BmkSingle} {e : MatrixEntry}
    (h : e ∈ processSingleBmk args ctx runners isl osl bmk) :
    ∃ rv tp conc ep dp sd, e = mkSingleEntry ctx rv isl osl tp conc ep dp sd := by
  have hstage4 : ∀ (mc : Option Int) (step tp : Int) (ep : Option Int) (dp : Option Bool)
      (sd : String) (cs ce : Int),
      e ∈ singleMaxConcStage mc step ctx runners isl osl tp ep dp sd cs ce →
      ∃ rv tp conc ep dp sd, e = mkSingleEntry ctx rv isl osl tp conc ep dp sd := by
    intro mc step tp ep dp sd cs ce hm
    unfold singleMaxConcStage at hm
    split at hm
    · obtain ⟨rv, conc, hrv⟩ := mem_singleLoopEmit hm
      exact ⟨rv, tp, conc, ep, dp, sd, hrv⟩
    · split at hm
      · simp at hm
      · split at hm
        · obtain ⟨rv, conc, hrv⟩ := mem_singleLoopEmit hm
          exact ⟨rv, tp, conc, ep, dp, sd, hrv⟩
        · obtain ⟨rv, conc, hrv⟩ := mem_singleLoopEmit hm
          exact ⟨rv, tp, conc, ep, dp, sd, hrv⟩
  have hstage3 : ∀ (mnc mc : Option Int) (step tp : Int) (ep : Option Int) (dp : Option Bool)
      (sd : String) (cs ce : Int),
      e ∈ singleMinConcStage mnc mc step ctx runners isl osl tp ep dp sd cs ce →
      ∃ rv tp conc ep dp sd, e = mkSingleEntry ctx rv isl osl tp conc ep dp sd := by
    intro mnc mc step tp ep dp sd cs ce hm
    unfold singleMinConcStage at hm
    split at hm
    · exact hstage4 _ _ _ _ _ _ _ _ hm
    · split at hm
      · simp at hm
      · split at hm
        · simp at hm
        · exact hstage4 _ _ _ _ _ _ _ _ hm
  have hstage2 : ∀ (me mnc mc : Option Int) (step tp : Int) (ep : Option Int) (dp : Option Bool)
      (sd : String) (cs ce : Int),
      e ∈ singleEpStage me mnc mc step ctx runners isl osl tp ep dp sd cs ce →
      ∃ rv tp conc ep dp sd, e = mkSingleEntry ctx rv isl osl tp conc ep dp sd := by
    intro me mnc mc step tp ep dp sd cs ce hm
    unfold singleEpStage at hm
    split at hm
    · exact hstage3 _ _ _ _ _ _ _ _ _ hm
    · split at hm
      · simp at hm
      · exact hstage3 _ _ _ _ _ _ _ _ _ hm
  unfold processSingleBmk at h
  split at h
  · simp at h
  · split at h
    · exact hstage2 _ _ _ _ _ _ _ _ _ _ h
    · split at h
      · simp at h
      · exact hstage2 _ _ _ _ _ _ _ _ _ _ h

/-- Every entry emitted by the multinode loop body is a mkMultiEntry of the
same context, lengths and benchmark point. -/
theorem processMultiBmk_shape {args : FullSweepArgs} {ctx : CfgCtx}
    {runners : List String} {isl osl : Int} {mb : BmkMulti} {e : MatrixEntry}
    (h : e ∈ processMultiBmk args ctx runners isl osl mb) :
    ∃ rv cvs, e = mkMultiEntry ctx rv isl osl (mb.spec_decoding.getD "none")
      mb.prefill mb.decode cvs := by
  unfold processMultiBmk at h
  split at h
  · simp at h
  · unfold multiEmitStage at h
    split at h
    · simp at h
    · split at h
      · simp at h
      · simp only [List.mem_map] at h
        obtain ⟨rv, _, hrv⟩ := h
        exact ⟨rv, _, hrv.symm⟩

/-- Claim C9: in full-sweep, every entry emitted by the multinode branch
carries the full concurrency list (one shared list per benchmark point, never
a scalar), and every entry emitted by the single-node branch carries a scalar
concurrency (never a list). -/
theorem full_sweep_conc_shape :
    (∀ (args : FullSweepArgs) (ctx : CfgCtx) (runners : List String) (isl osl : Int)
        (mb : BmkMulti), ∃ cvs : List Int,
        ∀ e ∈ processMultiBmk args ctx runners isl osl mb,
          e.conc = ConcVal.clist cvs) ∧
    (∀ (args : FullSweepArgs) (ctx : CfgCtx) (runners : List String) (isl osl : Int)
        (sb : BmkSingle), ∀ e ∈ processSingleBmk args ctx runners isl osl sb,
        ∃ n : Int, e.conc = ConcVal.scalar n) := by
  constructor
  · intro args ctx runners isl osl mb
    unfold processMultiBmk multiEmitStage
    split
    · exact ⟨[], by simp⟩
    · split
      · exact ⟨[], by simp⟩
      · split
        · exact ⟨[], by simp⟩
        · rename_i cv1 cv2 heq
          refine ⟨cv2, ?_⟩
          intro e he
          simp only [List.mem_map] at he
          obtain ⟨rv, _, hrv⟩ := he
          rw [← hrv]
          rfl
  · intro args ctx runners isl osl sb e he
    obtain ⟨rv, tp, conc, ep, dp, sd, hrv⟩ := processSingleBmk_shape he
    exact ⟨conc, by rw [hrv]; rfl⟩

/-- Witness for C9: concrete instances of both conjuncts. -/
theorem full_sweep_conc_shape_witness :
    (∃ cvs : List Int, ∀ e ∈ processMultiBmk fxArgsC2 fxCtx ["r"] 1024 1024 fxBmkC2,
        e.conc = ConcVal.clist cvs) ∧
    (∀ e ∈ processSingleBmk fxArgsC6 fxCtx ["r"] 1024 1024 fxBmkC6,
        ∃ n : Int, e.conc = ConcVal.scalar n) :=
  ⟨full_sweep_conc_shape.1 fxArgsC2 fxCtx ["r"] 1024 1024 fxBmkC2,
   full_sweep_conc_shape.2 fxArgsC6 fxCtx ["r"] 1024 1024 fxBmkC6⟩

/-- Every entry produced by the full-sweep processing of one config satisfies
the derived-length equation max_model_len = isl + osl + 200. -/
theorem processConfig_mml {args : FullSweepArgs} {rd : List (String × List String)}
    {key : String} {val : ConfigVal} {e : MatrixEntry}
    (h : e ∈ processConfig args rd key val) :
    e.max_model_len = e.isl + e.osl + 200 := by
  unfold processConfig at h
  split at h
  · simp at h
  · split at h
    · simp at h
    · simp only [List.mem_flatMap] at h
      obtain ⟨sc, _, h⟩ := h
      split at h
      · simp at h
      · simp only [List.mem_flatMap] at h
        obtain ⟨bmk, _, h⟩ := h
        split at h
        · cases bmk with
          | multi mb =>
            obtain ⟨rv, cvs, hrv⟩ := processMultiBmk_shape h
            rw [hrv]; rfl
          | single sb => simp at h
        · cases bmk with
          | single sb =>
            obtain ⟨rv, tp, conc, ep, dp, sd, hrv⟩ := processSingleBmk_shape h
            rw [hrv]; rfl
          | multi mb => simp at h

/-- Every entry of a successful full sweep satisfies the derived-length
equation. -/
theorem generate_full_sweep_mml {args : FullSweepArgs}
    {cat : List (String × ConfigVal)} {rd : List (String × List String)}
    {l : List MatrixEntry} (hok : generate_full_sweep args cat rd = Except.ok l)
    {e : MatrixEntry} (he : e ∈ l) : e.max_model_len = e.isl + e.osl + 200 := by
  have hl : l = cat.flatMap (fun kv => processConfig args rd kv.1 kv.2) := by
    simp only [generate_full_sweep] at hok
    cases hc : (!(if truthyList args.runner_type then
          (args.runner_type.getD []).filter (fun r => !((rd.map Prod.fst).contains r))
        else []).isEmpty) with
    | true =>
      rw [hc] at hok
      simp at hok
    | false =>
      rw [hc] at hok
      simp at hok
      exact hok.symm
  subst hl
  simp only [List.mem_flatMap] at he
  obtain ⟨kv, _, hm⟩ := he
  exact processConfig_mml hm

/-- Every entry of a test-config expansion of one single-node point is a
mkSingleEntry of the same context and lengths. -/
theorem testBmkSingle_shape {allow : Option (List Int)} {ctx : CfgCtx}
    {runner : String} {isl osl : Int} {sb : BmkSingle} {e : MatrixEntry}
    (h : e ∈ testBmkSingle allow ctx runner isl osl sb) :
    ∃ conc, e = mkSingleEntry ctx runner isl osl sb.tp conc sb.ep sb.dp_attn
      (sb.spec_decoding.getD "none") := by
  unfold testBmkSingle testEmitSingle at h
  split at h
  · simp at h
  · simp only [List.mem_map] at h
    obtain ⟨conc, _, hrv⟩ := h
    exact ⟨conc, hrv.symm⟩

/-- Every entry of a test-config expansion of one multinode point is a
mkMultiEntry of the same context and lengths. -/
theorem testBmkMulti_shape {allow : Option (List Int)} {ctx : CfgCtx}
    {runner : String} {isl osl : Int} {mb : BmkMulti} {e : MatrixEntry}
    (h : e ∈ testBmkMulti allow ctx runner isl osl mb) :
    ∃ cvs, e = mkMultiEntry ctx runner isl osl (mb.spec_decoding.getD "none")
      mb.prefill mb.decode cvs := by
  unfold testBmkMulti testEmitMulti at h
  split at h
  · simp at h
  · simp only [List.mem_singleton] at h
    exact ⟨_, h⟩

/-- Every entry of a successful test-config sweep satisfies the derived-length
equation. -/
theorem generate_test_config_sweep_mml {args : TestConfigArgs}
    {cat : List (String × ConfigVal)} {l : List MatrixEntry}
    (hok : generate_test_config_sweep args cat = Except.ok l)
    {e : MatrixEntry} (he : e ∈ l) : e.max_model_len = e.isl + e.osl + 200 := by
  have hl : l = args.config_keys.flatMap (fun k =>
      match lookupAssoc cat k with
      | none => []
      | some val =>
        let ctx : CfgCtx :=
          ⟨val.image, val.model, val.model_code, val.precision, val.framework, val.disagg⟩
        val.seq_len_configs.flatMap (fun sc =>
          sc.search_space.flatMap (fun bmk =>
            if val.multinode then
              match bmk with
              | Bmk.multi mb => testBmkMulti args.conc ctx val.runner sc.isl sc.osl mb
              | Bmk.single _ => []
            else
              match bmk with
              | Bmk.single sb => testBmkSingle args.conc ctx val.runner sc.isl sc.osl sb
              | Bmk.multi _ => []))) := by
    simp only [generate_test_config_sweep] at hok
    cases hc : (!(args.config_keys.filter (fun k => !containsKey cat k)).isEmpty) with
    | true =>
      rw [hc] at hok
      simp at hok
    | false =>
      rw [hc] at hok
      simp at hok
      exact hok.symm
  subst hl
  simp only [List.mem_flatMap] at he
  obtain ⟨k, _, hm⟩ := he
  split at hm
  · simp at hm
  · simp only [List.mem_flatMap] at hm
    obtain ⟨sc, _, bmk, _, hm⟩ := hm
    split at hm
    · cases bmk with
      | multi mb =>
        obtain ⟨cvs, hrv⟩ := testBmkMulti_shape hm
        rw [hrv]; rfl
      | single sb => simp at hm
    · cases bmk with
      | single sb =>
        obtain ⟨conc, hrv⟩ := testBmkSingle_shape hm
        rw [hrv]; rfl
      | multi mb => simp at hm

/-- Every entry of the runner-model-sweep processing of one config carries the
fixed max_model_len 2048 at isl = osl = 1024. -/
theorem processRunnerSweepConfig_mml {args : RunnerSweepArgs} {nodes : List String}
    {key : String} {val : ConfigVal} {e : MatrixEntry}
    (h : e ∈ processRunnerSweepConfig args nodes key val) :
    e.max_model_len = 2048 ∧ e.isl = 1024 ∧ e.osl = 1024 := by
  unfold processRunnerSweepConfig at h
  split at h
  · simp at h
  · split at h
    · simp at h
    · split at h
      · unfold runnerSweepMulti at h
        split at h
        · simp only [List.mem_map] at h
          obtain ⟨node, _, hrv⟩ := h
          rw [← hrv]
          exact ⟨rfl, rfl, rfl⟩
        · simp at h
      · unfold runnerSweepSingle at h
        split at h
        · simp only [List.mem_map] at h
          obtain ⟨node, _, hrv⟩ := h
          rw [← hrv]
          exact ⟨rfl, rfl, rfl⟩
        · simp at h

/-- Every entry of a successful runner-model-sweep carries the fixed
max_model_len 2048 at isl = osl = 1024. -/
theorem generate_runner_model_sweep_mml {args : RunnerSweepArgs}
    {cat : List (String × ConfigVal)} {rd : List (String × List String)}
    {l : List MatrixEntry}
    (hok : generate_runner_model_sweep_config args cat rd = Except.ok l)
    {e : MatrixEntry} (he : e ∈ l) :
    e.max_model_len = 2048 ∧ e.isl = 1024 ∧ e.osl = 1024 := by
  simp only [generate_runner_model_sweep_config] at hok
  cases hne : ((lookupAssoc rd args.runner_type).getD []).isEmpty with
  | true => simp [hne] at hok
  | false =>
    cases htf : truthyStr args.runner_node_filter with
    | false =>
      simp [hne, htf] at hok
      subst hok
      simp only [List.mem_flatMap] at he
      obtain ⟨kv, _, hm⟩ := he
      exact processRunnerSweepConfig_mml hm
    | true =>
      cases hfe : (((lookupAssoc rd args.runner_type).getD []).filter
          (fun n => containsSubstr n (args.runner_node_filter.getD ""))).isEmpty with
      | true => simp [hne, htf, hfe] at hok
      | false =>
        simp [hne, htf, hfe] at hok
        subst hok
        simp only [List.mem_flatMap] at he
        obtain ⟨kv, _, hm⟩ := he
        exact processRunnerSweepConfig_mml hm

/-- Claim C3 (amended: the derived-length rule holds for full-sweep and
test-config; runner-model-sweep instead emits every entry with the fixed
max_model_len = 2048 at isl = osl = 1024, not isl + osl + 200 = 2248). -/
theorem max_model_len_by_mode :
    (∀ (args : FullSweepArgs) (cat : List (String × ConfigVal))
        (rd : List (String × List String)) (l : List MatrixEntry),
        generate_full_sweep args cat rd = Except.ok l →
        ∀ e ∈ l, e.max_model_len = e.isl + e.osl + 200) ∧
    (∀ (args : TestConfigArgs) (cat : List (String × ConfigVal)) (l : List MatrixEntry),
        generate_test_config_sweep args cat = Except.ok l →
        ∀ e ∈ l, e.max_model_len = e.isl + e.osl + 200) ∧
    (∀ (args : RunnerSweepArgs) (cat : List (String × ConfigVal))
        (rd : List (String × List String)) (l : List MatrixEntry),
        generate_runner_model_sweep_config args cat rd = Except.ok l →
        ∀ e ∈ l, e.max_model_len = 2048 ∧ e.isl = 1024 ∧ e.osl = 1024) :=
  ⟨fun _ _ _ _ hok _ he => generate_full_sweep_mml hok he,
   fun _ _ _ hok _ he => generate_test_config_sweep_mml hok he,
   fun _ _ _ _ hok _ he => generate_runner_model_sweep_mml hok he⟩

/-- Counterexample for C3 as stated: a concrete runner-model-sweep run emits
entries whose max_model_len is 2048 while their isl + osl + 200 is 2248. -/
theorem runner_sweep_max_model_len_fixed :
    generate_runner_model_sweep_config fxArgsRms fxCat fxRunnerData =
      Except.ok [mkRunnerSingleEntry fxVal "n1" fxHb 1,
                 mkRunnerSingleEntry fxVal "n2" fxHb 1] ∧
    (mkRunnerSingleEntry fxVal "n1" fxHb 1).max_model_len = 2048 ∧
    (mkRunnerSingleEntry fxVal "n1" fxHb 1).isl +
      (mkRunnerSingleEntry fxVal "n1" fxHb 1).osl + 200 = 2248 ∧
    (2048 : Int) ≠ 2248 :=
  ⟨rfl, by decide, by decide, by decide⟩

/-- Witness for C3: the amended theorem applied to the concrete
runner-model-sweep run and one of its entries. -/
theorem max_model_len_by_mode_witness :
    (mkRunnerSingleEntry fxVal "n1" fxHb 1).max_model_len = 2048 ∧
    (mkRunnerSingleEntry fxVal "n1" fxHb 1).isl = 1024 ∧
    (mkRunnerSingleEntry fxVal "n1" fxHb 1).osl = 1024 :=
  max_model_len_by_mode.2.2 fxArgsRms fxCat fxRunnerData
    [mkRunnerSingleEntry fxVal "n1" fxHb 1, mkRunnerSingleEntry fxVal "n2" fxHb 1]
    rfl (mkRunnerSingleEntry fxVal "n1" fxHb 1) (by simp)

/-- The running best of the Python max(key=...) fold dominates the seed and
every scanned element. -/
theorem firstMaxBy_foldl_le {α : Type _} (f : α → Int) :
    ∀ (t : List α) (acc : α),
      f acc ≤ f (t.foldl (fun best cand => if f cand > f best then cand else best) acc) ∧
      ∀ x ∈ t, f x ≤ f (t.foldl (fun best cand => if f cand > f best then cand else best) acc) := by
  intro t
  induction t with
  | nil => intro acc; exact ⟨le_refl _, by simp⟩
  | cons x t ih =>
    intro acc
    have hstep : f acc ≤ f (if f x > f acc then x else acc) ∧
        f x ≤ f (if f x > f acc then x else acc) := by
      by_cases hc : f x > f acc
      · simp only [hc, if_true]; omega
      · simp only [hc, if_false]; omega
    obtain ⟨h1, h2⟩ := ih (if f x > f acc then x else acc)
    simp only [List.foldl_cons]
    refine ⟨le_trans hstep.1 h1, ?_⟩
    intro y hy
    rw [List.mem_cons] at hy
    rcases hy with rfl | hy
    · exact le_trans hstep.2 h1
    · exact h2 y hy

/-- Python max(iterable, key=f) returns an element with maximal key. -/
theorem firstMaxBy_le {α : Type _} (f : α → Int) {l : List α} {b : α}
    (h : firstMaxBy f l = some b) : ∀ x ∈ l, f x ≤ f b := by
  cases l with
  | nil => cases h
  | cons a t =>
    have hb : b = t.foldl (fun best cand => if f cand > f best then cand else best) a :=
      (Option.some.inj h).symm
    subst hb
    intro x hx
    rw [List.mem_cons] at hx
    rcases hx with rfl | hx
    · exact (firstMaxBy_foldl_le f t x).1
    · exact (firstMaxBy_foldl_le f t a).2 x hx

/-- Claim C7 (amended: the fallback to the list minimum or 1 triggers not only
when the range start is absent but also when it is the falsy value 0): in
runner-model-sweep single-node mode, for every matching config with a 1k1k
profile, the search-space point with the highest TP is selected, the
concurrency is the caller override if given, else that point's range start when
nonzero, else the minimum of its explicit list (else 1), and exactly one entry
per resolved runner node is emitted, all sharing that TP and concurrency. -/
theorem runner_model_sweep_single_node_semantics :
    ∀ (args : RunnerSweepArgs) (nodes : List String) (key : String) (val : ConfigVal)
      (tc : SeqConfig) (hb : BmkSingle),
      rmsSkip args key val = false →
      val.multinode = false →
      val.seq_len_configs.find? (fun c => c.isl == 1024 && c.osl == 1024) = some tc →
      firstMaxBy bmkTp tc.search_space = some (Bmk.single hb) →
      (∀ b ∈ tc.search_space, bmkTp b ≤ hb.tp) ∧
      processRunnerSweepConfig args nodes key val =
        nodes.map (fun node => mkRunnerSingleEntry val node hb (rmsSingleConc args hb)) ∧
      ∀ e ∈ processRunnerSweepConfig args nodes key val,
        e.tp = some hb.tp ∧ e.conc = ConcVal.scalar (rmsSingleConc args hb) := by
  intro args nodes key val tc hb hskip hmn hfind hmax
  have heq : processRunnerSweepConfig args nodes key val =
      nodes.map (fun node => mkRunnerSingleEntry val node hb (rmsSingleConc args hb)) := by
    unfold processRunnerSweepConfig
    rw [hskip]
    simp only [Bool.false_eq_true, if_false, hfind, hmn]
    unfold runnerSweepSingle
    rw [hmax]
  refine ⟨?_, heq, ?_⟩
  · intro b hbm
    exact firstMaxBy_le bmkTp hmax b hbm
  · intro e he
    rw [heq] at he
    simp only [List.mem_map] at he
    obtain ⟨node, _, hrv⟩ := he
    rw [← hrv]
    exact ⟨rfl, rfl⟩

/-- Counterexample for C7 as stated: with no caller override and a selected
point whose range start is 0, the emitted concurrency is 1 (the minimum of the
defaulted list [1]), not the point's range start 0. -/
theorem runner_sweep_conc_start_zero :
    fxArgsRms.conc = none ∧ fxHb0.conc_start = 0 ∧
    generate_runner_model_sweep_config fxArgsRms fxCat0 fxRunnerData =
      Except.ok [mkRunnerSingleEntry fxVal0 "n1" fxHb0 1,
                 mkRunnerSingleEntry fxVal0 "n2" fxHb0 1] ∧
    (mkRunnerSingleEntry fxVal0 "n1" fxHb0 1).conc = ConcVal.scalar 1 ∧
    ConcVal.scalar 1 ≠ ConcVal.scalar 0 :=
  ⟨rfl, rfl, rfl, by decide, by decide⟩

/-- Witness for C7: the amended theorem applied to the concrete h100 config
with search-space TP 4 and two nodes. -/
theorem runner_model_sweep_single_node_semantics_witness :
    processRunnerSweepConfig fxArgsRms ["n1", "n2"] "cfg" fxVal =
      ["n1", "n2"].map (fun node =>
        mkRunnerSingleEntry fxVal node fxHb (rmsSingleConc fxArgsRms fxHb)) ∧
    rmsSingleConc fxArgsRms fxHb = 1 :=
  ⟨(runner_model_sweep_single_node_semantics fxArgsRms ["n1", "n2"] "cfg" fxVal
      ⟨1024, 1024, [Bmk.single fxHb]⟩ fxHb (by decide) (by decide) (by decide)
      (by decide)).2.1,
   by decide⟩

/-- Dict membership on the association list agrees with existence of a mapped
value. -/
theorem containsKey_iff {β : Type _} (cat : List (String × β)) (k : String) :
    containsKey cat k = true ↔ ∃ v, (k, v) ∈ cat := by
  unfold containsKey
  rw [List.any_eq_true]
  constructor
  · rintro ⟨⟨a, b⟩, hm, hp⟩
    rw [beq_iff_eq] at hp
    exact ⟨b, by rw [← hp]; exact hm⟩
  · rintro ⟨v, hv⟩
    exact ⟨(k, v), hv, by rw [beq_iff_eq]⟩

/-- The sorted key list of the missing-keys message contains exactly the
catalog's keys. -/
theorem mem_sortedKeys (cat : List (String × ConfigVal)) (k : String) :
    k ∈ sortedKeys cat ↔ ∃ v, (k, v) ∈ cat := by
  unfold sortedKeys
  rw [(List.perm_insertionSort (fun a b => a ≤ b) (cat.map Prod.fst)).mem_iff]
  rw [List.mem_map]
  constructor
  · rintro ⟨⟨a, b⟩, hm, hp⟩
    dsimp at hp
    subst hp
    exact ⟨b, hm⟩
  · rintro ⟨v, hv⟩
    exact ⟨(k, v), hv, rfl⟩

/-- Claim C8: test-config raises, before emitting any entry, exactly when some
requested key is absent from the catalog; the error payload names every
missing key and lists every available catalog key; when all keys exist it
returns a matrix. -/
theorem test_config_missing_keys_abort :
    ∀ (args : TestConfigArgs) (cat : List (String × ConfigVal)),
      ((∃ k ∈ args.config_keys, containsKey cat k = false) →
        ∃ missing available,
          generate_test_config_sweep args cat =
            Except.error (GenError.missingConfigKeys missing available) ∧
          (∀ k, k ∈ missing ↔ k ∈ args.config_keys ∧ containsKey cat k = false) ∧
          (∀ k, k ∈ available ↔ ∃ v, (k, v) ∈ cat)) ∧
      ((∀ k ∈ args.config_keys, containsKey cat k = true) →
        ∃ l, generate_test_config_sweep args cat = Except.ok l) := by
  intro args cat
  constructor
  · rintro ⟨k0, hk0, habs⟩
    refine ⟨args.config_keys.filter (fun k => !containsKey cat k), sortedKeys cat, ?_, ?_, ?_⟩
    · have hne : (args.config_keys.filter (fun k => !containsKey cat k)).isEmpty = false := by
        have hm : k0 ∈ args.config_keys.filter (fun k => !containsKey cat k) := by
          rw [List.mem_filter]
          exact ⟨hk0, by rw [habs]; rfl⟩
        cases hl : args.config_keys.filter (fun k => !containsKey cat k) with
        | nil => rw [hl] at hm; cases hm
        | cons a t => rfl
      simp only [generate_test_config_sweep]
      rw [hne]
      rfl
    · intro k
      rw [List.mem_filter]
      constructor
      · rintro ⟨h1, h2⟩
        rw [Bool.not_eq_true'] at h2
        exact ⟨h1, h2⟩
      · rintro ⟨h1, h2⟩
        exact ⟨h1, by rw [h2]; rfl⟩
    · exact mem_sortedKeys cat
  · intro hall
    have hempty : (args.config_keys.filter (fun k => !containsKey cat k)).isEmpty = true := by
      have : args.config_keys.filter (fun k => !containsKey cat k) = [] := by
        rw [List.filter_eq_nil_iff]
        intro a ha
        rw [hall a ha]
        simp
      rw [this]
      rfl
    refine ⟨args.config_keys.flatMap (fun k =>
      match lookupAssoc cat k with
      | none => []
      | some val =>
        let ctx : CfgCtx :=
          ⟨val.image, val.model, val.model_code, val.precision, val.framework, val.disagg⟩
        val.seq_len_configs.flatMap (fun sc =>
          sc.search_space.flatMap (fun bmk =>
            if val.multinode then
              match bmk with
              | Bmk.multi mb => testBmkMulti args.conc ctx val.runner sc.isl sc.osl mb
              | Bmk.single _ => []
            else
              match bmk with
              | Bmk.single sb => testBmkSingle args.conc ctx val.runner sc.isl sc.osl sb
              | Bmk.multi _ => []))), ?_⟩
    simp only [generate_test_config_sweep]
    rw [hempty]
    rfl

/-- Witness for C8: both conjuncts applied to the concrete one-config catalog,
once with the absent key "missing1" and once with the present key "cfg". -/
theorem test_config_missing_keys_abort_witness :
    (∃ missing available,
      generate_test_config_sweep fxTestArgs fxCat =
        Except.error (GenError.missingConfigKeys missing available) ∧
      (∀ k, k ∈ missing ↔ k ∈ fxTestArgs.config_keys ∧ containsKey fxCat k = false) ∧
      (∀ k, k ∈ available ↔ ∃ v, (k, v) ∈ fxCat)) ∧
    (∃ l, generate_test_config_sweep fxTestArgsOk fxCat = Except.ok l) :=
  ⟨(test_config_missing_keys_abort fxTestArgs fxCat).1 ⟨"missing1", by decide, by decide⟩,
   (test_config_missing_keys_abort fxTestArgsOk fxCat).2 (by decide)⟩

/-- The Python max fold over ints returns the seed or a scanned element and
dominates all of them. -/
theorem foldl_max_spec : ∀ (t : List Int) (a : Int),
    (t.foldl (fun x y => max x y) a = a ∨ t.foldl (fun x y => max x y) a ∈ t) ∧
    a ≤ t.foldl (fun x y => max x y) a ∧
    ∀ x ∈ t, x ≤ t.foldl (fun x y => max x y) a := by
  intro t
  induction t with
  | nil => intro a; exact ⟨Or.inl rfl, le_refl a, by simp⟩
  | cons b t ih =>
    intro a
    obtain ⟨hmem, hle, hall⟩ := ih (max a b)
    simp only [List.foldl_cons]
    refine ⟨?_, le_trans (le_max_left a b) hle, ?_⟩
    · rcases hmem with h | h
      · rcases max_choice a b with hm | hm
        · exact Or.inl (h.trans hm)
        · exact Or.inr (by rw [h.trans hm]; exact List.mem_cons_self b t)
      · exact Or.inr (List.mem_cons_of_mem b h)
    · intro x hx
      rw [List.mem_cons] at hx
      rcases hx with rfl | hx
      · exact le_trans (le_max_right a x) hle
      · exact hall x hx

/-- Python max over a non-empty int list returns a member dominating the
list. -/
theorem pyMax_spec {l : List Int} {b : Int} (h : pyMax l = some b) :
    b ∈ l ∧ ∀ x ∈ l, x ≤ b := by
  cases l with
  | nil => cases h
  | cons a t =>
    have hb : b = t.foldl (fun x y => max x y) a := (Option.some.inj h).symm
    subst hb
    obtain ⟨hmem, hle, hall⟩ := foldl_max_spec t a
    constructor
    · rcases hmem with h2 | h2
      · rw [h2]; exact List.mem_cons_self a t
      · exact List.mem_cons_of_mem a h2
    · intro x hx
      rw [List.mem_cons] at hx
      rcases hx with rfl | hx
      · exact hle
      · exact hall x hx

/-- Python max is determined by membership plus dominance. -/
theorem pyMax_eq_of_max {l : List Int} {b : Int} (hmem : b ∈ l)
    (hmax : ∀ x ∈ l, x ≤ b) : pyMax l = some b := by
  cases hl : pyMax l with
  | none =>
    cases l with
    | nil => cases hmem
    | cons a t => simp [pyMax] at hl
  | some c =>
    obtain ⟨hcm, hcall⟩ := pyMax_spec hl
    have hbc : b = c := le_antisymm (hcall b hmem) (hmax c hcm)
    rw [hbc]

/-- The Python min fold over ints returns the seed or a scanned element and is
dominated by all of them. -/
theorem foldl_min_spec : ∀ (t : List Int) (a : Int),
    (t.foldl (fun x y => min x y) a = a ∨ t.foldl (fun x y => min x y) a ∈ t) ∧
    t.foldl (fun x y => min x y) a ≤ a ∧
    ∀ x ∈ t, t.foldl (fun x y => min x y) a ≤ x := by
  intro t
  induction t with
  | nil => intro a; exact ⟨Or.inl rfl, le_refl a, by simp⟩
  | cons b t ih =>
    intro a
    obtain ⟨hmem, hle, hall⟩ := ih (min a b)
    simp only [List.foldl_cons]
    refine ⟨?_, le_trans hle (min_le_left a b), ?_⟩
    · rcases hmem with h | h
      · rcases min_choice a b with hm | hm
        · exact Or.inl (h.trans hm)
        · exact Or.inr (by rw [h.trans hm]; exact List.mem_cons_self b t)
      · exact Or.inr (List.mem_cons_of_mem b h)
    · intro x hx
      rw [List.mem_cons] at hx
      rcases hx with rfl | hx
      · exact le_trans hle (min_le_right a x)
      · exact hall x hx

/-- Python min over a non-empty int list returns a member dominated by the
list. -/
theorem pyMin_spec {l : List Int} {b : Int} (h : pyMin l = some b) :
    b ∈ l ∧ ∀ x ∈ l, b ≤ x := by
  cases l with
  | nil => cases h
  | cons a t =>
    have hb : b = t.foldl (fun x y => min x y) a := (Option.some.inj h).symm
    subst hb
    obtain ⟨hmem, hle, hall⟩ := foldl_min_spec t a
    constructor
    · rcases hmem with h2 | h2
      · rw [h2]; exact List.mem_cons_self a t
      · exact List.mem_cons_of_mem a h2
    · intro x hx
      rw [List.mem_cons] at hx
      rcases hx with rfl | hx
      · exact hle
      · exact hall x hx

/-- Python min is determined by membership plus dominance. -/
theorem pyMin_eq_of_min {l : List Int} {b : Int} (hmem : b ∈ l)
    (hmin : ∀ x ∈ l, b ≤ x) : pyMin l = some b := by
  cases hl : pyMin l with
  | none =>
    cases l with
    | nil => cases hmem
    | cons a t => simp [pyMin] at hl
  | some c =>
    obtain ⟨hcm, hcall⟩ := pyMin_spec hl
    have hbc : b = c := le_antisymm (hmin c hcm) (hcall b hmem)
    rw [hbc]

/-- Group lookup on the empty association list. -/
theorem lookupG_nil (j : GKey) : lookupG [] j = [] := rfl

/-- Group lookup steps over the head by key comparison. -/
theorem lookupG_cons (g : GKey × List (Nat × MatrixEntry))
    (rest : List (GKey × List (Nat × MatrixEntry))) (j : GKey) :
    lookupG (g :: rest) j = if g.1 = j then g.2 else lookupG rest j := by
  unfold lookupG
  by_cases h : g.1 = j
  · rw [List.find?_cons_of_pos _ (by simp [h]), if_pos h]
    rfl
  · rw [List.find?_cons_of_neg _ (by simp [h]), if_neg h]

/-- Appending an indexed entry into its group changes exactly that key's entry
list, by appending the value at its end. -/
theorem lookupG_addToGroups (k j : GKey) (v : Nat × MatrixEntry) :
    ∀ gs : List (GKey × List (Nat × MatrixEntry)),
      lookupG (addToGroups gs k v) j =
        if j = k then lookupG gs j ++ [v] else lookupG gs j := by
  intro gs
  induction gs with
  | nil =>
    rw [show addToGroups [] k v = [(k, [v])] from rfl, lookupG_cons, lookupG_nil]
    by_cases hjk : j = k
    · rw [if_pos hjk.symm, if_pos hjk]
      rfl
    · rw [if_neg (fun h => hjk h.symm), if_neg hjk]
  | cons g rest ih =>
    rw [show addToGroups (g :: rest) k v =
        (if g.1 = k then (g.1, g.2 ++ [v]) :: rest else g :: addToGroups rest k v) from rfl]
    by_cases hgk : g.1 = k
    · rw [if_pos hgk, lookupG_cons, lookupG_cons]
      by_cases hgj : g.1 = j
      · have hjk : j = k := by rw [← hgj, hgk]
        rw [if_pos hgj, if_pos hjk, if_pos hgj]
      · have hjk : ¬ j = k := fun h => hgj (by rw [hgk, h])
        rw [if_neg hgj, if_neg hjk, if_neg hgj]
    · rw [if_neg hgk, lookupG_cons, lookupG_cons, ih]
      by_cases hgj : g.1 = j
      · have hjk : ¬ j = k := fun h => hgk (by rw [hgj, h])
        rw [if_pos hgj, if_neg hjk, if_pos hgj]
      · rw [if_neg hgj, if_neg hgj]

/-- Keys after adding to the groups: the old keys plus possibly the new one. -/
theorem mem_keys_addToGroups (k j : GKey) (v : Nat × MatrixEntry) :
    ∀ gs : List (GKey × List (Nat × MatrixEntry)),
      (j ∈ (addToGroups gs k v).map Prod.fst ↔ j ∈ gs.map Prod.fst ∨ j = k) := by
  intro gs
  induction gs with
  | nil => simp [addToGroups]
  | cons g rest ih =>
    rw [show addToGroups (g :: rest) k v =
        (if g.1 = k then (g.1, g.2 ++ [v]) :: rest else g :: addToGroups rest k v) from rfl]
    by_cases hgk : g.1 = k
    · rw [if_pos hgk]
      simp only [List.map_cons, List.mem_cons]
      constructor
      · rintro (h | h)
        · exact Or.inl (Or.inl h)
        · exact Or.inl (Or.inr h)
      · rintro ((h | h) | h)
        · exact Or.inl h
        · exact Or.inr h
        · exact Or.inl (by rw [h, ← hgk])
    · rw [if_neg hgk]
      simp only [List.map_cons, List.mem_cons, ih]
      tauto

/-- Adding to the groups preserves distinctness of the keys. -/
theorem nodupKeys_addToGroups (k : GKey) (v : Nat × MatrixEntry) :
    ∀ gs : List (GKey × List (Nat × MatrixEntry)),
      (gs.map Prod.fst).Nodup → ((addToGroups gs k v).map Prod.fst).Nodup := by
  intro gs
  induction gs with
  | nil => intro _; simp [addToGroups]
  | cons g rest ih =>
    intro hnd
    rw [List.map_cons, List.nodup_cons] at hnd
    rw [show addToGroups (g :: rest) k v =
        (if g.1 = k then (g.1, g.2 ++ [v]) :: rest else g :: addToGroups rest k v) from rfl]
    by_cases hgk : g.1 = k
    · rw [if_pos hgk]
      rw [List.map_cons, List.nodup_cons]
      exact hnd
    · rw [if_neg hgk]
      rw [List.map_cons, List.nodup_cons]
      refine ⟨?_, ih hnd.2⟩
      rw [mem_keys_addToGroups]
      rintro (h | h)
      · exact hnd.1 h
      · exact hgk h

/-- The grouping loop preserves distinctness of the keys. -/
theorem nodupKeys_buildGroupsAux :
    ∀ (es : List MatrixEntry) (i : Nat) (gs : List (GKey × List (Nat × MatrixEntry))),
      (gs.map Prod.fst).Nodup → ((buildGroupsAux i es gs).map Prod.fst).Nodup := by
  intro es
  induction es with
  | nil => intro i gs h; exact h
  | cons e rest ih =>
    intro i gs h
    rw [show buildGroupsAux i (e :: rest) gs =
        buildGroupsAux (i + 1) rest
          (if evalEligible e then addToGroups gs (groupKey e) (i, e) else gs) from rfl]
    apply ih
    by_cases he : evalEligible e = true
    · rw [if_pos he]
      exact nodupKeys_addToGroups _ _ gs h
    · rw [if_neg he]
      exact h

/-- The groups of a matrix have distinct keys. -/
theorem nodupKeys_buildGroups (m : List MatrixEntry) :
    ((buildGroups m).map Prod.fst).Nodup :=
  nodupKeys_buildGroupsAux m 0 [] (by simp)

/-- Unfolding equation of idxFilter on a cons cell. -/
theorem idxFilter_cons (k : GKey) (i : Nat) (e : MatrixEntry) (rest : List MatrixEntry) :
    idxFilter k i (e :: rest) =
      if evalEligible e = true ∧ groupKey e = k then (i, e) :: idxFilter k (i + 1) rest
      else idxFilter k (i + 1) rest := rfl

/-- The grouping loop appends to each key's group exactly the indexed eligible
entries of that key, in index order. -/
theorem lookupG_buildGroupsAux (k : GKey) :
    ∀ (es : List MatrixEntry) (i : Nat) (gs : List (GKey × List (Nat × MatrixEntry))),
      lookupG (buildGroupsAux i es gs) k = lookupG gs k ++ idxFilter k i es := by
  intro es
  induction es with
  | nil => intro i gs; rw [show buildGroupsAux i [] gs = gs from rfl]; simp [idxFilter]
  | cons e rest ih =>
    intro i gs
    rw [show buildGroupsAux i (e :: rest) gs =
        buildGroupsAux (i + 1) rest
          (if evalEligible e then addToGroups gs (groupKey e) (i, e) else gs) from rfl]
    rw [ih]
    by_cases he : evalEligible e = true
    · rw [if_pos he, lookupG_addToGroups]
      by_cases hk : k = groupKey e
      · rw [if_pos hk]
        rw [idxFilter_cons, if_pos ⟨he, hk.symm⟩]
        rw [List.append_assoc]
        rfl
      · rw [if_neg hk]
        rw [idxFilter_cons, if_neg (fun hc => hk hc.2.symm)]
    · rw [if_neg he]
      rw [idxFilter_cons, if_neg (fun hc => he hc.1)]

/-- The group of a key holds exactly the indexed eligible entries of that
key. -/
theorem lookupG_buildGroups (m : List MatrixEntry) (k : GKey) :
    lookupG (buildGroups m) k = idxFilter k 0 m := by
  rw [show buildGroups m = buildGroupsAux 0 m [] from rfl, lookupG_buildGroupsAux,
    lookupG_nil]
  rfl

/-- With distinct keys, membership in the group list determines the lookup. -/
theorem lookupG_of_mem :
    ∀ (gs : List (GKey × List (Nat × MatrixEntry))), (gs.map Prod.fst).Nodup →
      ∀ {k : GKey} {vs : List (Nat × MatrixEntry)}, (k, vs) ∈ gs → lookupG gs k = vs := by
  intro gs
  induction gs with
  | nil => intro _ k vs h; cases h
  | cons g rest ih =>
    intro hnd k vs hm
    rw [List.map_cons, List.nodup_cons] at hnd
    rw [List.mem_cons] at hm
    rcases hm with heq | hm
    · rw [← heq, lookupG_cons, if_pos rfl]
    · have hgk : ¬ (g.1 = k) := by
        intro h
        apply hnd.1
        rw [h]
        exact List.mem_map.mpr ⟨(k, vs), hm, rfl⟩
      rw [lookupG_cons, if_neg hgk]
      exact ih hnd.2 hm

/-- A non-empty lookup result is itself a member of the group list. -/
theorem mem_of_lookupG_ne_nil {gs : List (GKey × List (Nat × MatrixEntry))} {k : GKey}
    (h : lookupG gs k ≠ []) : (k, lookupG gs k) ∈ gs := by
  unfold lookupG at *
  cases hf : gs.find? (fun g => decide (g.1 = k)) with
  | none => rw [hf] at h; simp at h
  | some g =>
    have hmem := List.mem_of_find?_eq_some hf
    have hpred := List.find?_some hf
    rw [decide_eq_true_eq] at hpred
    have hg : (k, g.2) = g := by rw [← hpred]
    show (k, g.2) ∈ gs
    rw [hg]
    exact hmem

/-- A member of the indexed filter is an eligible entry of the matrix at its
index, with the filter's key. -/
theorem mem_idxFilter_get :
    ∀ (es : List MatrixEntry) (i j : Nat) (e : MatrixEntry) (k : GKey),
      (j, e) ∈ idxFilter k i es →
        i ≤ j ∧ es.get? (j - i) = some e ∧ evalEligible e = true ∧ groupKey e = k := by
  intro es
  induction es with
  | nil => intro i j e k h; simp [idxFilter] at h
  | cons e0 rest ih =>
    intro i j e k h
    rw [idxFilter_cons] at h
    by_cases hc : evalEligible e0 = true ∧ groupKey e0 = k
    · rw [if_pos hc] at h
      rw [List.mem_cons] at h
      rcases h with heq | h
      · have hj : j = i ∧ e = e0 := Prod.mk.injEq .. ▸ heq
        obtain ⟨rfl, rfl⟩ := hj
        refine ⟨le_refl j, ?_, hc.1, hc.2⟩
        simp
      · obtain ⟨hij, hget, helig, hkey⟩ := ih (i + 1) j e k h
        refine ⟨by omega, ?_, helig, hkey⟩
        have hj : j - i = (j - (i + 1)) + 1 := by omega
        rw [hj]
        simpa using hget
    · rw [if_neg hc] at h
      obtain ⟨hij, hget, helig, hkey⟩ := ih (i + 1) j e k h
      refine ⟨by omega, ?_, helig, hkey⟩
      have hj : j - i = (j - (i + 1)) + 1 := by omega
      rw [hj]
      simpa using hget

/-- An eligible entry of the matrix with the filter's key appears in the
indexed filter at its index. -/
theorem idxFilter_of_get :
    ∀ (es : List MatrixEntry) (i d : Nat) (e : MatrixEntry) (k : GKey),
      es.get? d = some e → evalEligible e = true → groupKey e = k →
      (i + d, e) ∈ idxFilter k i es := by
  intro es
  induction es with
  | nil => intro i d e k h; cases h
  | cons e0 rest ih =>
    intro i d e k hget helig hkey
    cases d with
    | zero =>
      rw [List.get?_cons_zero] at hget
      have he0 : e0 = e := Option.some.inj hget
      subst he0
      rw [idxFilter_cons, if_pos ⟨helig, hkey⟩]
      simp
    | succ d =>
      rw [List.get?_cons_succ] at hget
      have hmem := ih (i + 1) d e k hget helig hkey
      rw [idxFilter_cons]
      have harr : i + (d + 1) = (i + 1) + d := by omega
      by_cases hc : evalEligible e0 = true ∧ groupKey e0 = k
      · rw [if_pos hc]
        apply List.mem_cons_of_mem
        rw [harr]
        exact hmem
      · rw [if_neg hc]
        rw [harr]
        exact hmem

/-- The values of the indexed filter are the group of the key, as a filter of
the matrix. -/
theorem idxFilter_map_snd (k : GKey) :
    ∀ (es : List MatrixEntry) (i : Nat),
      (idxFilter k i es).map Prod.snd = evalGroupK es k := by
  intro es
  induction es with
  | nil => intro i; rfl
  | cons e rest ih =>
    intro i
    rw [idxFilter_cons]
    by_cases hc : evalEligible e = true ∧ groupKey e = k
    · rw [if_pos hc, List.map_cons, ih]
      unfold evalGroupK
      rw [List.filter_cons_of_pos]
      simp [hc.1, hc.2]
    · rw [if_neg hc, ih]
      unfold evalGroupK
      rw [List.filter_cons_of_neg]
      simp only [Bool.and_eq_true, decide_eq_true_eq]
      exact fun h => hc ⟨h.1, h.2⟩

/-- The marking loop preserves the length of the matrix. -/
theorem markAux_length (idxs : List Nat) :
    ∀ (es : List MatrixEntry) (i : Nat), (markAux idxs i es).length = es.length := by
  intro es
  induction es with
  | nil => intro i; rfl
  | cons e rest ih =>
    intro i
    rw [show markAux idxs i (e :: rest) =
      { e with run_eval := idxs.contains i } :: markAux idxs (i + 1) rest from rfl]
    rw [List.length_cons, List.length_cons, ih]

/-- The marking loop rewrites exactly the run_eval field of each entry, by
membership of its index. -/
theorem markAux_get (idxs : List Nat) :
    ∀ (es : List MatrixEntry) (i j : Nat) (h : j < (markAux idxs i es).length)
      (h2 : j < es.length),
      (markAux idxs i es).get ⟨j, h⟩ =
        { es.get ⟨j, h2⟩ with run_eval := idxs.contains (i + j) } := by
  intro es
  induction es with
  | nil => intro i j h h2; exact absurd h2 (by simp)
  | cons e rest ih =>
    intro i j h h2
    cases j with
    | zero => rfl
    | succ j =>
      have h2s : j < rest.length := by
        rw [List.length_cons] at h2
        omega
      have hs : j < (markAux idxs (i + 1) rest).length := by
        rw [markAux_length]
        exact h2s
      have hstep : (markAux idxs i (e :: rest)).get ⟨j + 1, h⟩ =
          (markAux idxs (i + 1) rest).get ⟨j, hs⟩ := rfl
      rw [hstep, ih (i + 1) j hs h2s]
      have harr : i + 1 + j = i + (j + 1) := by omega
      rw [harr]
      rfl

/-- Unfolding of groupMarks when the tp extremes exist. -/
theorem groupMarks_eq (vs : List (Nat × MatrixEntry)) (mn mx : Int)
    (hmin : pyMin (vs.map (fun p => tpD p.2)) = some mn)
    (hmax : pyMax (vs.map (fun p => tpD p.2)) = some mx) :
    groupMarks vs =
      (match pyMax ((vs.filter (fun p => tpD p.2 == mx)).map (fun p => concD p.2)) with
       | some mc =>
         ((vs.filter (fun p => tpD p.2 == mx)).filter (fun p => concD p.2 == mc)).map Prod.fst
       | none => []) ++
      (if mn != mx then
        match pyMax ((vs.filter (fun p => tpD p.2 == mn)).map (fun p => concD p.2)) with
        | some mc =>
          ((vs.filter (fun p => tpD p.2 == mn)).filter (fun p => concD p.2 == mc)).map Prod.fst
        | none => []
       else []) := by
  unfold groupMarks
  rw [hmin, hmax]

/-- Membership in one marked sub-list of a group. -/
theorem mem_marks_iff (vs : List (Nat × MatrixEntry)) (t c : Int) (j : Nat) :
    j ∈ ((vs.filter (fun p => tpD p.2 == t)).filter (fun p => concD p.2 == c)).map Prod.fst ↔
      ∃ e2 : MatrixEntry, (j, e2) ∈ vs ∧ tpD e2 = t ∧ concD e2 = c := by
  simp only [List.mem_map, List.mem_filter, beq_iff_eq]
  constructor
  · rintro ⟨⟨j2, e2⟩, ⟨⟨hm, ht⟩, hcq⟩, hj⟩
    dsimp at hj ht hcq
    subst hj
    exact ⟨e2, hm, ht, hcq⟩
  · rintro ⟨e2, hm, ht, hc⟩
    exact ⟨(j, e2), ⟨⟨hm, ht⟩, hc⟩, rfl⟩

/-- The selected index set of eval selection realizes exactly the marking rule
stated from the claim: an index is selected iff its entry is eligible and is a
maximal-tp entry with maximal concurrency among same-tp group members, or the
group holds several tp values and it is a minimal-tp entry with maximal
concurrency among same-tp group members. -/
theorem evalIndices_iff (m : List MatrixEntry) (j : Nat) (e : MatrixEntry)
    (hget : m.get? j = some e) : j ∈ evalIndices m ↔ markedBySpec m e := by
  constructor
  · intro hj
    unfold evalIndices at hj
    rw [List.mem_flatMap] at hj
    obtain ⟨⟨k, vs⟩, hgmem, hjm⟩ := hj
    have hvs : vs = idxFilter k 0 m := by
      have h1 := lookupG_of_mem (buildGroups m) (nodupKeys_buildGroups m) hgmem
      rw [lookupG_buildGroups] at h1
      exact h1.symm
    subst hvs
    have hGsnd := idxFilter_map_snd k m 0
    have hmemG : ∀ q : Nat × MatrixEntry, q ∈ idxFilter k 0 m →
        q.2 ∈ evalGroupK m k := by
      intro q hq
      rw [← hGsnd]
      exact List.mem_map.mpr ⟨q, hq, rfl⟩
    have hGmem : ∀ x ∈ evalGroupK m k,
        ∃ q : Nat × MatrixEntry, q ∈ idxFilter k 0 m ∧ q.2 = x := by
      intro x hx
      rw [← hGsnd, List.mem_map] at hx
      exact hx
    cases hmin : pyMin ((idxFilter k 0 m).map (fun p => tpD p.2)) with
    | none =>
      unfold groupMarks at hjm
      rw [hmin] at hjm
      simp at hjm
    | some mn =>
      cases hmax : pyMax ((idxFilter k 0 m).map (fun p => tpD p.2)) with
      | none =>
        unfold groupMarks at hjm
        rw [hmin, hmax] at hjm
        simp at hjm
      | some mx =>
        rw [groupMarks_eq _ mn mx hmin hmax, List.mem_append] at hjm
        rcases hjm with hjm | hjm
        · cases hmc : pyMax (((idxFilter k 0 m).filter
              (fun p => tpD p.2 == mx)).map (fun p => concD p.2)) with
          | none => rw [hmc] at hjm; simp at hjm
          | some mc =>
            rw [hmc, mem_marks_iff] at hjm
            obtain ⟨e2, hm2, ht2, hc2⟩ := hjm
            obtain ⟨-, hget2, helig2, hkey2⟩ := mem_idxFilter_get m 0 j e2 k hm2
            rw [Nat.sub_zero] at hget2
            have he2 : e2 = e := by rw [hget2] at hget; exact Option.some.inj hget
            subst he2
            refine ⟨helig2, Or.inl ⟨?_, ?_⟩⟩
            · rw [hkey2]
              intro x hx
              obtain ⟨q, hq, rfl⟩ := hGmem x hx
              have hmem2 : tpD q.2 ∈ (idxFilter k 0 m).map (fun p => tpD p.2) :=
                List.mem_map.mpr ⟨q, hq, rfl⟩
              have := (pyMax_spec hmax).2 _ hmem2
              rw [ht2]
              exact this
            · rw [hkey2]
              intro x hx hte
              obtain ⟨q, hq, rfl⟩ := hGmem x hx
              have hqh : q ∈ (idxFilter k 0 m).filter (fun p => tpD p.2 == mx) :=
                List.mem_filter.mpr ⟨hq, beq_iff_eq.mpr (hte.trans ht2)⟩
              have hmem2 : concD q.2 ∈ ((idxFilter k 0 m).filter
                  (fun p => tpD p.2 == mx)).map (fun p => concD p.2) :=
                List.mem_map.mpr ⟨q, hqh, rfl⟩
              have := (pyMax_spec hmc).2 _ hmem2
              rw [hc2]
              exact this
        · by_cases hne : (mn != mx) = true
          · rw [if_pos hne] at hjm
            cases hmc : pyMax (((idxFilter k 0 m).filter
                (fun p => tpD p.2 == mn)).map (fun p => concD p.2)) with
            | none => rw [hmc] at hjm; simp at hjm
            | some mc =>
              rw [hmc, mem_marks_iff] at hjm
              obtain ⟨e2, hm2, ht2, hc2⟩ := hjm
              obtain ⟨-, hget2, helig2, hkey2⟩ := mem_idxFilter_get m 0 j e2 k hm2
              rw [Nat.sub_zero] at hget2
              have he2 : e2 = e := by rw [hget2] at hget; exact Option.some.inj hget
              subst he2
              refine ⟨helig2, Or.inr ⟨?_, ?_, ?_⟩⟩
              · obtain ⟨q, hq, hqmx⟩ := List.mem_map.mp (pyMax_spec hmax).1
                refine ⟨q.2, by rw [hkey2]; exact hmemG q hq, ?_⟩
                rw [hqmx, ht2]
                rw [bne_iff_ne] at hne
                exact fun h => hne h.symm
              · rw [hkey2]
                intro x hx
                obtain ⟨q, hq, rfl⟩ := hGmem x hx
                have hmem2 : tpD q.2 ∈ (idxFilter k 0 m).map (fun p => tpD p.2) :=
                  List.mem_map.mpr ⟨q, hq, rfl⟩
                have := (pyMin_spec hmin).2 _ hmem2
                rw [ht2]
                exact this
              · rw [hkey2]
                intro x hx hte
                obtain ⟨q, hq, rfl⟩ := hGmem x hx
                have hqh : q ∈ (idxFilter k 0 m).filter (fun p => tpD p.2 == mn) :=
                  List.mem_filter.mpr ⟨hq, beq_iff_eq.mpr (hte.trans ht2)⟩
                have hmem2 : concD q.2 ∈ ((idxFilter k 0 m).filter
                    (fun p => tpD p.2 == mn)).map (fun p => concD p.2) :=
                  List.mem_map.mpr ⟨q, hqh, rfl⟩
                have := (pyMax_spec hmc).2 _ hmem2
                rw [hc2]
                exact this
          · rw [if_neg hne] at hjm
            simp at hjm
  · intro hspec
    obtain ⟨helig, hrule⟩ := hspec
    have hmem_vs : (j, e) ∈ idxFilter (groupKey e) 0 m := by
      have h1 := idxFilter_of_get m 0 j e (groupKey e) hget helig rfl
      simpa using h1
    have hne_vs : idxFilter (groupKey e) 0 m ≠ [] := by
      intro hnil
      rw [hnil] at hmem_vs
      cases hmem_vs
    have hgmem : (groupKey e, idxFilter (groupKey e) 0 m) ∈ buildGroups m := by
      have h1 := @mem_of_lookupG_ne_nil (buildGroups m) (groupKey e)
        (by rw [lookupG_buildGroups]; exact hne_vs)
      rw [lookupG_buildGroups] at h1
      exact h1
    unfold evalIndices
    rw [List.mem_flatMap]
    refine ⟨(groupKey e, idxFilter (groupKey e) 0 m), hgmem, ?_⟩
    have hGsnd := idxFilter_map_snd (groupKey e) m 0
    have htpe_mem : tpD e ∈ (idxFilter (groupKey e) 0 m).map (fun p => tpD p.2) :=
      List.mem_map.mpr ⟨(j, e), hmem_vs, rfl⟩
    have hmemG : ∀ q : Nat × MatrixEntry, q ∈ idxFilter (groupKey e) 0 m →
        q.2 ∈ evalGroupK m (groupKey e) := by
      intro q hq
      rw [← hGsnd]
      exact List.mem_map.mpr ⟨q, hq, rfl⟩
    cases hmin : pyMin ((idxFilter (groupKey e) 0 m).map (fun p => tpD p.2)) with
    | none =>
      exfalso
      cases hl : (idxFilter (groupKey e) 0 m).map (fun p => tpD p.2) with
      | nil => rw [hl] at htpe_mem; cases htpe_mem
      | cons a t => rw [hl] at hmin; simp [pyMin] at hmin
    | some mn =>
      cases hmax : pyMax ((idxFilter (groupKey e) 0 m).map (fun p => tpD p.2)) with
      | none =>
        exfalso
        cases hl : (idxFilter (groupKey e) 0 m).map (fun p => tpD p.2) with
        | nil => rw [hl] at htpe_mem; cases htpe_mem
        | cons a t => rw [hl] at hmax; simp [pyMax] at hmax
      | some mx =>
        rw [groupMarks_eq _ mn mx hmin hmax, List.mem_append]
        rcases hrule with ⟨hdom, hconc⟩ | ⟨hex, hdom, hconc⟩
        · left
          have hmx_e : mx = tpD e := by
            obtain ⟨q, hq, hqe⟩ := List.mem_map.mp (pyMax_spec hmax).1
            have h2 : tpD q.2 ≤ tpD e := hdom _ (hmemG q hq)
            have h3 : tpD e ≤ mx := (pyMax_spec hmax).2 _ htpe_mem
            omega
          have hjh : (j, e) ∈ (idxFilter (groupKey e) 0 m).filter
              (fun p => tpD p.2 == mx) :=
            List.mem_filter.mpr ⟨hmem_vs, beq_iff_eq.mpr hmx_e.symm⟩
          have hconc_mem : concD e ∈ ((idxFilter (groupKey e) 0 m).filter
              (fun p => tpD p.2 == mx)).map (fun p => concD p.2) :=
            List.mem_map.mpr ⟨(j, e), hjh, rfl⟩
          have hconc_dom : ∀ c ∈ ((idxFilter (groupKey e) 0 m).filter
              (fun p => tpD p.2 == mx)).map (fun p => concD p.2), c ≤ concD e := by
            intro c hc
            obtain ⟨q, hqf, hqc⟩ := List.mem_map.mp hc
            rw [List.mem_filter] at hqf
            have hqtp : tpD q.2 = mx := beq_iff_eq.mp hqf.2
            have := hconc q.2 (hmemG q hqf.1) (by rw [hqtp, hmx_e])
            rw [← hqc]
            exact this
          rw [pyMax_eq_of_max hconc_mem hconc_dom, mem_marks_iff]
          exact ⟨e, hmem_vs, hmx_e.symm, rfl⟩
        · right
          have hmn_e : mn = tpD e := by
            obtain ⟨q, hq, hqe⟩ := List.mem_map.mp (pyMin_spec hmin).1
            have h2 : tpD e ≤ tpD q.2 := hdom _ (hmemG q hq)
            have h3 : mn ≤ tpD e := (pyMin_spec hmin).2 _ htpe_mem
            omega
          have hne2 : mn ≠ mx := by
            obtain ⟨x, hxG, hxne⟩ := hex
            rw [← hGsnd, List.mem_map] at hxG
            obtain ⟨q, hq, rfl⟩ := hxG
            have h1 : mn ≤ tpD q.2 :=
              (pyMin_spec hmin).2 _ (List.mem_map.mpr ⟨q, hq, rfl⟩)
            have h2 : tpD q.2 ≤ mx :=
              (pyMax_spec hmax).2 _ (List.mem_map.mpr ⟨q, hq, rfl⟩)
            intro heq
            apply hxne
            omega
          rw [if_pos (bne_iff_ne.mpr hne2)]
          have hjh : (j, e) ∈ (idxFilter (groupKey e) 0 m).filter
              (fun p => tpD p.2 == mn) :=
            List.mem_filter.mpr ⟨hmem_vs, beq_iff_eq.mpr hmn_e.symm⟩
          have hconc_mem : concD e ∈ ((idxFilter (groupKey e) 0 m).filter
              (fun p => tpD p.2 == mn)).map (fun p => concD p.2) :=
            List.mem_map.mpr ⟨(j, e), hjh, rfl⟩
          have hconc_dom : ∀ c ∈ ((idxFilter (groupKey e) 0 m).filter
              (fun p => tpD p.2 == mn)).map (fun p => concD p.2), c ≤ concD e := by
            intro c hc
            obtain ⟨q, hqf, hqc⟩ := List.mem_map.mp hc
            rw [List.mem_filter] at hqf
            have hqtp : tpD q.2 = mn := beq_iff_eq.mp hqf.2
            have := hconc q.2 (hmemG q hqf.1) (by rw [hqtp, hmn_e])
            rw [← hqc]
            exact this
          rw [pyMax_eq_of_max hconc_mem hconc_dom, mem_marks_iff]
          exact ⟨e, hmem_vs, hmn_e.symm, rfl⟩

/-- Bool containment on index lists agrees with membership. -/
theorem contains_iff_mem_nat (l : List Nat) (a : Nat) : l.contains a = true ↔ a ∈ l := by
  simp

/-- Claim C4: eval selection groups the eligible entries by (model, runner,
framework, precision, isl, osl, spec-decoding) and, within each group, marks
exactly the maximum-TP entries at the maximum concurrency among max-TP
entries, plus — only when the group holds several TP values — the minimum-TP
entries at the maximum concurrency among min-TP entries; on the synthetic
group with TP 8 at concurrencies 1, 2, 4, 8 and TP 1 at concurrencies 1, 2,
exactly (TP 8, conc 8) and (TP 1, conc 2) are marked. -/
theorem eval_selection_rule :
    (∀ (m : List MatrixEntry) (j : Nat) (h : j < (mark_eval_entries m).length)
        (h2 : j < m.length),
        (((mark_eval_entries m).get ⟨j, h⟩).run_eval = true ↔
          markedBySpec m (m.get ⟨j, h2⟩))) ∧
    mark_eval_entries synthMatrix = synthExpected := by
  constructor
  · intro m j h h2
    have hq : (mark_eval_entries m).get ⟨j, h⟩ =
        { m.get ⟨j, h2⟩ with run_eval := (evalIndices m).contains (0 + j) } :=
      markAux_get (evalIndices m) m 0 j h h2
    rw [hq]
    show (evalIndices m).contains (0 + j) = true ↔ _
    rw [Nat.zero_add, contains_iff_mem_nat]
    exact evalIndices_iff m j (m.get ⟨j, h2⟩) (List.get?_eq_get h2)
  · decide

/-- Witness for C4: the rule applied to index 3 of the synthetic matrix, the
(TP 8, conc 8) entry. -/
theorem eval_selection_rule_witness :
    (((mark_eval_entries synthMatrix).get ⟨3, by decide⟩).run_eval = true ↔
      markedBySpec synthMatrix (synthMatrix.get ⟨3, by decide⟩)) :=
  eval_selection_rule.1 synthMatrix 3 (by decide) (by decide)

/-- Claim C5: eval selection never marks an entry whose (isl, osl) differs
from (1024, 8192) or that lacks a top-level TP field, regardless of how
entries group. -/
theorem eval_never_marks_ineligible :
    ∀ (m : List MatrixEntry) (j : Nat) (h : j < (mark_eval_entries m).length)
      (h2 : j < m.length),
      ((m.get ⟨j, h2⟩).isl ≠ 1024 ∨ (m.get ⟨j, h2⟩).osl ≠ 8192 ∨
        (m.get ⟨j, h2⟩).tp = none) →
      ((mark_eval_entries m).get ⟨j, h⟩).run_eval = false := by
  intro m j h h2 hbad
  have hq : (mark_eval_entries m).get ⟨j, h⟩ =
      { m.get ⟨j, h2⟩ with run_eval := (evalIndices m).contains (0 + j) } :=
    markAux_get (evalIndices m) m 0 j h h2
  rw [hq]
  show (evalIndices m).contains (0 + j) = false
  rw [Nat.zero_add]
  by_contra hcon
  rw [Bool.not_eq_false, contains_iff_mem_nat] at hcon
  have hmarked := (evalIndices_iff m j _ (List.get?_eq_get h2)).mp hcon
  obtain ⟨helig, -⟩ := hmarked
  unfold evalEligible at helig
  rw [Bool.and_eq_true] at helig
  obtain ⟨htp, hrest⟩ := helig
  rw [Bool.and_eq_true] at hrest
  obtain ⟨hisl, hosl⟩ := hrest
  rcases hbad with hb | hb | hb
  · exact hb (by rwa [beq_iff_eq] at hisl)
  · exact hb (by rwa [beq_iff_eq] at hosl)
  · rw [hb] at htp; cases htp

/-- Witness for C5: an off-length entry (isl = 512) is left unmarked. -/
theorem eval_never_marks_ineligible_witness :
    ((mark_eval_entries [synthOff]).get ⟨0, by decide⟩).run_eval = false :=
  eval_never_marks_ineligible [synthOff] 0 (by decide) (by decide)
    (Or.inl (by decide))

/-- Claim C10: eval selection returns a matrix of the same length and order,
leaves every field except run_eval of every entry unchanged, and overwrites
run_eval with membership of the entry's index in the selected index set. -/
theorem mark_eval_frame :
    ∀ m : List MatrixEntry, (mark_eval_entries m).length = m.length ∧
      ∀ (j : Nat) (h : j < (mark_eval_entries m).length) (h2 : j < m.length),
        (mark_eval_entries m).get ⟨j, h⟩ =
          { m.get ⟨j, h2⟩ with run_eval := (evalIndices m).contains j } := by
  intro m
  constructor
  · exact markAux_length (evalIndices m) m 0
  · intro j h h2
    have hq : (mark_eval_entries m).get ⟨j, h⟩ =
        { m.get ⟨j, h2⟩ with run_eval := (evalIndices m).contains (0 + j) } :=
      markAux_get (evalIndices m) m 0 j h h2
    rw [Nat.zero_add] at hq
    exact hq

/-- Witness for C10: length preservation and the frame equation at index 0 of
the synthetic matrix. -/
theorem mark_eval_frame_witness :
    (mark_eval_entries synthMatrix).length = synthMatrix.length ∧
    (mark_eval_entries synthMatrix).get ⟨0, by decide⟩ =
      { synthMatrix.get ⟨0, by decide⟩ with
        run_eval := (evalIndices synthMatrix).contains 0 } :=
  ⟨(mark_eval_frame synthMatrix).1,
   (mark_eval_frame synthMatrix).2 0 (by decide) (by decide)⟩
